import Mathlib

/-!
Verification development for the meshqem QEM simplification core
(`src/native/meshqem/src/qem.cpp`, `mesh.hpp`, `qem.hpp`).

Embedding conventions:

* C++ `double` arithmetic is idealised as exact rational arithmetic (`ℚ`).
  The only operation of the source that is not rational is `std::sqrt`,
  used once (`len3`) to normalise a face normal.  The normalised plane
  vector `p = (n.x/L, n.y/L, n.z/L, d/L)` (with `L = sqrt(n·n)`) is used
  exclusively to build the rank-1 quadric `K[r][c] = p[r]*p[c]`, and every
  entry of that product is `u[r]*u[c] / (n·n)` for the unnormalised vector
  `u = (n.x, n.y, n.z, -(n·p))`, which is rational.  We therefore build the
  quadric directly from the unnormalised data (`plane_quadric` below takes
  the squared length as an extra argument).  Likewise the degeneracy test
  `L < 1e-12` is rendered as `n·n < (1e-12)^2`, which is equivalent for
  exact arithmetic since both sides are nonnegative.

* `std::vector` indexing is total here (`List.getD` / functions on `ℕ`);
  the source has undefined behaviour on out-of-range indices, and the
  claims below that depend on indices quantify over well-formed meshes.

* `std::unordered_set<int>` is modelled as a duplicate-free `List ℕ`
  (`lInsert` / `List.erase`); its unspecified C++ iteration order is
  refined to the order of that list.  `std::priority_queue`
  pops a minimum-cost entry (the comparator of `EdgeCand` inverts `<`);
  among equal costs the C++ tie order is implementation defined, and we
  refine it to "earliest pushed wins" (`heapPop`).

* Wall-clock time (`std::chrono::steady_clock`) is modelled by an oracle
  `clock : ℕ → ℚ` giving the elapsed seconds observed at the k-th loop
  iteration; the source reads the clock exactly once per iteration.

* The per-face liveness array `face_alive` (kept parallel to `faces` in
  the source) is fused with the triangle list into `List FaceEntry`,
  which keeps the two in lockstep by construction.

* The progress print (`fprintf(stderr, ...)` and `next_progress`) has no
  observable effect on the mesh state and is not modelled.
-/

/-- 3D point / vector with rational coordinates (source: `struct Vec3`,
`double x, y, z`). -/
structure Vec3 where
  x : ℚ
  y : ℚ
  z : ℚ
deriving DecidableEq, Repr

/-- Triangle of three 0-based vertex indices (source: `struct Tri`).  The
source stores C `int`; valid meshes only carry nonnegative in-range
indices, so we use `ℕ`. -/
structure Tri where
  a : ℕ
  b : ℕ
  c : ℕ
deriving DecidableEq, Repr

/-- 4x4 quadric, 16 coefficients in row-major order (source: `struct
Quadric { double m[16]; }`), as a total function on the index. -/
structure Quadric where
  m : ℕ → ℚ

/-- Source: `q_zero`. -/
def q_zero : Quadric := ⟨fun _ => 0⟩

/-- Source: `q_add` (elementwise `A += B`, returning the new value). -/
def q_add (A B : Quadric) : Quadric := ⟨fun i => A.m i + B.m i⟩

/-- Source: `q_sum` (elementwise sum). -/
def q_sum (A B : Quadric) : Quadric := ⟨fun i => A.m i + B.m i⟩

/-- Vector subtraction (source: `sub`). -/
def sub3 (a b : Vec3) : Vec3 := ⟨a.x - b.x, a.y - b.y, a.z - b.z⟩

/-- Cross product (source: `cross`). -/
def cross (a b : Vec3) : Vec3 :=
  ⟨a.y * b.z - a.z * b.y, a.z * b.x - a.x * b.z, a.x * b.y - a.y * b.x⟩

/-- Dot product (source: `dot3`). -/
def dot3 (a b : Vec3) : ℚ := a.x * b.x + a.y * b.y + a.z * b.z

/-- The near-singularity / degeneracy tolerance `1e-12` of the source. -/
def tol : ℚ := 1 / 1000000000000

/-- Squared tolerance: comparing a length against `1e-12` equals comparing
the squared length against this (see the header comment). -/
def tolSq : ℚ := tol * tol

/-- Quadric of the plane through a face.  Source (`plane_quadric`) receives
the normalised plane `(a,b,c,d)` and sets `K.m[4r+c] = p[r]*p[c]`.  Here
`u0..u3` are the unnormalised plane data `(n.x, n.y, n.z, -(n·p))` and `S`
the squared normal length, so that entry `(r,c)` is `u[r]*u[c]/S`,
exactly the rational value of the source's product. -/
def plane_quadric (u0 u1 u2 u3 S : ℚ) : Quadric :=
  ⟨fun k =>
    (match k / 4 with | 0 => u0 | 1 => u1 | 2 => u2 | _ => u3) *
    (match k % 4 with | 0 => u0 | 1 => u1 | 2 => u2 | _ => u3) / S⟩

/-- Evaluate the quadratic form `v^T Q v` at homogeneous `v = [x,y,z,w]`
(source: `quadric_eval`, with its two 4-iteration loops unrolled). -/
def quadric_eval (Q : Quadric) (x y z w : ℚ) : ℚ :=
  x * (Q.m 0 * x + Q.m 1 * y + Q.m 2 * z + Q.m 3 * w) +
  y * (Q.m 4 * x + Q.m 5 * y + Q.m 6 * z + Q.m 7 * w) +
  z * (Q.m 8 * x + Q.m 9 * y + Q.m 10 * z + Q.m 11 * w) +
  w * (Q.m 12 * x + Q.m 13 * y + Q.m 14 * z + Q.m 15 * w)

/-- Source: `clamp(x, lo, hi)`. -/
def clamp (x lo hi : ℚ) : ℚ := if x < lo then lo else if x > hi then hi else x

/-- One row of the augmented 3x4 elimination matrix `M` of `solve3`. -/
structure Row4 where
  c0 : ℚ
  c1 : ℚ
  c2 : ℚ
  c3 : ℚ
deriving DecidableEq, Repr

/-- The augmented 3x4 matrix `M` of `solve3`. -/
structure M34 where
  r0 : Row4
  r1 : Row4
  r2 : Row4
deriving DecidableEq, Repr

/-- 3x3 matrix `A` handed to `solve3` (row-major, source `double A[9]`). -/
structure Mat3 where
  a00 : ℚ
  a01 : ℚ
  a02 : ℚ
  a10 : ℚ
  a11 : ℚ
  a12 : ℚ
  a20 : ℚ
  a21 : ℚ
  a22 : ℚ
deriving DecidableEq, Repr

/-- Build the augmented matrix `M[3][4] = {{A,b0},{A,b1},{A,b2}}`. -/
def mkM (A : Mat3) (b : Vec3) : M34 :=
  ⟨⟨A.a00, A.a01, A.a02, b.x⟩, ⟨A.a10, A.a11, A.a12, b.y⟩, ⟨A.a20, A.a21, A.a22, b.z⟩⟩

/-- Largest absolute pivot available in column 0 (rows 0..2). -/
def colMax0 (M : M34) : ℚ := max |M.r0.c0| (max |M.r1.c0| |M.r2.c0|)

/-- Largest absolute pivot available in column 1 (rows 1..2). -/
def colMax1 (M : M34) : ℚ := max |M.r1.c1| |M.r2.c1|

/-- Largest absolute pivot available in column 2 (row 2 only). -/
def colMax2 (M : M34) : ℚ := |M.r2.c2|

/-- The pivot magnitude `pv` selected by the source's scan over column 0:
start from row 0 and replace the candidate whenever a strictly larger
magnitude appears in a lower row. -/
def pv0 (M : M34) : ℚ :=
  if |M.r1.c0| > |M.r0.c0| then
    if |M.r2.c0| > |M.r1.c0| then |M.r2.c0| else |M.r1.c0|
  else
    if |M.r2.c0| > |M.r0.c0| then |M.r2.c0| else |M.r0.c0|

/-- The pivot magnitude selected by the scan over column 1 (rows 1..2). -/
def pv1 (M : M34) : ℚ := if |M.r2.c1| > |M.r1.c1| then |M.r2.c1| else |M.r1.c1|

/-- The pivot magnitude selected by the scan over column 2 (row 2 only). -/
def pv2 (M : M34) : ℚ := |M.r2.c2|

/-- Row combination `r - f * s` starting at column 0. -/
def rowSub0 (r s : Row4) (f : ℚ) : Row4 :=
  ⟨r.c0 - f * s.c0, r.c1 - f * s.c1, r.c2 - f * s.c2, r.c3 - f * s.c3⟩

/-- Row combination `r - f * s` touching columns 1..3 only (the source's
elimination for stage `i` runs `for (c = i; c < 4; ++c)`). -/
def rowSub1 (r s : Row4) (f : ℚ) : Row4 :=
  ⟨r.c0, r.c1 - f * s.c1, r.c2 - f * s.c2, r.c3 - f * s.c3⟩

/-- Divide a whole row by `d` (source: pivot-row normalisation over all
four columns). -/
def rowDiv (r : Row4) (d : ℚ) : Row4 := ⟨r.c0 / d, r.c1 / d, r.c2 / d, r.c3 / d⟩

/-- Stage `i = 0` transform of `solve3`: partial pivot on column 0 (the
source keeps the earliest row among equal magnitudes: it replaces the
candidate only on strictly greater values), swap it up, normalise, and
eliminate rows 1 and 2. -/
def elim0 (M : M34) : M34 :=
  let M1 : M34 :=
    if |M.r1.c0| > |M.r0.c0| then
      if |M.r2.c0| > |M.r1.c0| then ⟨M.r2, M.r1, M.r0⟩ else ⟨M.r1, M.r0, M.r2⟩
    else
      if |M.r2.c0| > |M.r0.c0| then ⟨M.r2, M.r1, M.r0⟩ else M
  let p := rowDiv M1.r0 M1.r0.c0
  ⟨p, rowSub0 M1.r1 p M1.r1.c0, rowSub0 M1.r2 p M1.r2.c0⟩

/-- Stage `i = 1` transform: pivot on column 1 among rows 1..2. -/
def elim1 (M : M34) : M34 :=
  let M1 : M34 := if |M.r2.c1| > |M.r1.c1| then ⟨M.r0, M.r2, M.r1⟩ else M
  let p := rowDiv M1.r1 M1.r1.c1
  ⟨M1.r0, p, rowSub1 M1.r2 p M1.r2.c1⟩

/-- Stage `i = 2` transform: normalise row 2 (no rows below to swap with
or eliminate). -/
def elim2 (M : M34) : M34 := ⟨M.r0, M.r1, rowDiv M.r2 M.r2.c2⟩

/-- Back substitution of `solve3` (after normalisation each `M[i][i] = 1`,
so no division happens here; the source subtracts `M[i][c]*x[c]` for
`c > i`). -/
def backSub (M : M34) : Vec3 :=
  let x2 := M.r2.c3
  let x1 := M.r1.c3 - M.r1.c2 * x2
  let x0 := M.r0.c3 - M.r0.c1 * x1 - M.r0.c2 * x2
  ⟨x0, x1, x2⟩

/-- Source `solve3`: Gaussian elimination with partial pivoting on the
augmented matrix; each stage fails (returns `none`, the source's `false`)
when the best available pivot magnitude in its column is below `tol`. -/
def solve3 (A : Mat3) (b : Vec3) : Option Vec3 :=
  let M := mkM A b
  if pv0 M < tol then none
  else
    let M1 := elim0 M
    if pv1 M1 < tol then none
    else
      let M2 := elim1 M1
      if pv2 M2 < tol then none
      else some (backSub (elim2 M2))

/-- Pointwise function update (the per-index writes `vq[i] += K`,
`adj[w].insert(...)`, `v_alive[v] = 0`, ... of the source's vectors). -/
def upd {α : Type} (f : ℕ → α) (i : ℕ) (v : α) : ℕ → α := fun j => if j = i then v else f j

/-- Per-face UV triplet `(u0,v0,u1,v1,u2,v2)` (source:
`std::array<double, 6>`); opaque to the algorithm. -/
abbrev UV6 := ℚ × ℚ × ℚ × ℚ × ℚ × ℚ

/-- Source `struct Mesh` (mesh.hpp): vertex positions, triangles, and the
optional per-face UV triplets. -/
structure Mesh where
  verts : List Vec3
  faces : List Tri
  face_uvs : List UV6
deriving DecidableEq, Repr

/-- Source `struct SimplifyOptions` with its defaults. -/
structure SimplifyOptions where
  ratio : ℚ := 1 / 2
  target_faces : ℤ := -1
  max_collapses : ℤ := -1
  time_limit : ℚ := -1
  progress_interval : ℤ := 20000
deriving DecidableEq, Repr

/-- Source `struct SimplifyReport` (sizes, hence `ℕ`). -/
structure SimplifyReport where
  faces_before : ℕ
  faces_after : ℕ
  verts_before : ℕ
  verts_after : ℕ
deriving DecidableEq, Repr

/-- Source `struct EdgeCand`.  The comparator orders by `cost` only
(inverted, so `std::priority_queue` pops a minimum-cost entry). -/
structure EdgeCand where
  u : ℕ
  v : ℕ
  cost : ℚ
deriving DecidableEq, Repr

/-- A triangle fused with its `face_alive` flag (the source keeps
`std::vector<char> face_alive` parallel to `mesh.faces`). -/
structure FaceEntry where
  tri : Tri
  alive : Bool
deriving DecidableEq, Repr

/-- The mutable state of one `qem_simplify` run: the mesh arrays being
mutated in place plus the locals of the function (`vq`, `adj`, `heap`,
`face_alive`, `v_alive`, `faces_cur`, `target`, `collapsed`,
`max_collapses`).  `iter` counts loop iterations, solely to index the
time oracle. -/
structure QState where
  nv : ℕ
  verts : ℕ → Vec3
  vq : ℕ → Quadric
  adj : ℕ → List ℕ
  v_alive : ℕ → Bool
  faces : List FaceEntry
  heap : List EdgeCand
  faces_cur : ℤ
  target : ℤ
  collapsed : ℤ
  max_collapses : ℤ
  iter : ℕ

/-- `vq[i] = q_add(vq[i], K)` on the per-vertex quadric array. -/
def addQ (vq : ℕ → Quadric) (i : ℕ) (K : Quadric) : ℕ → Quadric :=
  upd vq i (q_add (vq i) K)

/-- The per-face quadric accumulation loop (qem.cpp lines 84-97): compute
each face's unnormalised normal, drop (mark dead) zero-area faces, and
fold the plane quadric onto the three corner accumulators. -/
def accumFaces (verts : ℕ → Vec3) : List Tri → (ℕ → Quadric) → List FaceEntry × (ℕ → Quadric)
  | [], vq => ([], vq)
  | f :: fs, vq =>
    let p := verts f.a
    let q := verts f.b
    let r := verts f.c
    let n := cross (sub3 q p) (sub3 r p)
    let S := dot3 n n
    if S < tolSq then
      let rest := accumFaces verts fs vq
      (⟨f, false⟩ :: rest.1, rest.2)
    else
      let K := plane_quadric n.x n.y n.z (-(dot3 n p)) S
      let rest := accumFaces verts fs (addQ (addQ (addQ vq f.a K) f.b K) f.c K)
      (⟨f, true⟩ :: rest.1, rest.2)

/-- Duplicate-free list insertion: the model of `unordered_set::insert`
(no effect when the element is present).  Sets are modelled as
duplicate-free lists so that every operation is structurally recursive
and kernel-computable; the unspecified `unordered_set` iteration order is
refined to the order of this list. -/
def lInsert (x : ℕ) (l : List ℕ) : List ℕ := if x ∈ l then l else x :: l

/-- `adj[x].insert(y)`. -/
def adjIns (adj : ℕ → List ℕ) (x y : ℕ) : ℕ → List ℕ := upd adj x (lInsert y (adj x))

/-- Adjacency construction (qem.cpp lines 100-105): for every face insert
all six directed neighbour relations. -/
def buildAdj : List Tri → (ℕ → List ℕ) → (ℕ → List ℕ)
  | [], adj => adj
  | f :: fs, adj =>
    buildAdj fs
      (adjIns (adjIns (adjIns (adjIns (adjIns (adjIns adj f.a f.b) f.a f.c) f.b f.a) f.b f.c)
        f.c f.a) f.c f.b)

/-- Upper-left 3x3 block of a quadric (row-major entries 0,1,2 / 4,5,6 /
8,9,10), handed to `solve3`. -/
def quvA (Q : Quadric) : Mat3 :=
  ⟨Q.m 0, Q.m 1, Q.m 2, Q.m 4, Q.m 5, Q.m 6, Q.m 8, Q.m 9, Q.m 10⟩

/-- Negated last column `(-m[3], -m[7], -m[11])`, handed to `solve3`. -/
def quvB (Q : Quadric) : Vec3 := ⟨-(Q.m 3), -(Q.m 7), -(Q.m 11)⟩

/-- Source lambda `push_edge` (qem.cpp lines 109-126): reject `u == v`,
canonicalise to `u < v`, reject non-adjacent pairs, estimate the optimal
collapse position by solving the merged quadric's normal equations
(midpoint of the two current positions when near-singular; `*0.5` is
written `/2`), and append the candidate with its evaluated cost. -/
def pushEdge (verts : ℕ → Vec3) (vq : ℕ → Quadric) (adj : ℕ → List ℕ) (u v : ℕ)
    (heap : List EdgeCand) : List EdgeCand :=
  if u = v then heap
  else
    let a := if u > v then v else u
    let b := if u > v then u else v
    if b ∈ adj a then
      let Quv := q_sum (vq a) (vq b)
      let x :=
        match solve3 (quvA Quv) (quvB Quv) with
        | some x => x
        | none =>
          ⟨((verts a).x + (verts b).x) / 2, ((verts a).y + (verts b).y) / 2,
            ((verts a).z + (verts b).z) / 2⟩
      heap ++ [⟨a, b, quadric_eval Quv x.x x.y x.z 1⟩]
    else heap

/-- Initial seeding (qem.cpp line 128): for each vertex `u` and each
neighbour `v > u`, push the candidate edge.  The `unordered_set` is
iterated in increasing order (see the header comment). -/
def seedHeap (verts : ℕ → Vec3) (vq : ℕ → Quadric) (adj : ℕ → List ℕ) (nv : ℕ) :
    List EdgeCand :=
  (List.range nv).foldl
    (fun h u =>
      (adj u).foldl (fun h2 w => if u < w then pushEdge verts vq adj u w h2 else h2) h)
    []

/-- State after the setup phase of `qem_simplify` (qem.cpp lines 70-136):
targets derived, quadrics accumulated, degenerate faces dropped,
adjacency built, heap seeded, all vertices alive.  `v_alive` and the
other per-vertex arrays are total functions; the source only ever indexes
them below `nv`. -/
def initState (m : Mesh) (opt : SimplifyOptions) : QState :=
  let nv := m.verts.length
  let vertsF := fun i => m.verts.getD i ⟨0, 0, 0⟩
  let faces0 : ℤ := m.faces.length
  let target : ℤ :=
    if opt.target_faces > 0 then opt.target_faces
    else max 0 ⌊(m.faces.length : ℚ) * clamp opt.ratio 0 1⌋
  let mc0 : ℤ := if opt.max_collapses > 0 then opt.max_collapses else faces0 - target
  let af := accumFaces vertsF m.faces (fun _ => q_zero)
  let adj := buildAdj m.faces (fun _ => [])
  { nv := nv
    verts := vertsF
    vq := af.2
    adj := adj
    v_alive := fun _ => true
    faces := af.1
    heap := seedHeap vertsF af.2 adj nv
    faces_cur := faces0
    target := target
    collapsed := 0
    max_collapses := if mc0 < 0 then 0 else mc0
    iter := 0 }

/-- Pop of the priority structure: remove a minimum-cost entry; among
equal costs the earliest-pushed entry wins (a deterministic refinement of
the implementation-defined `std::priority_queue` tie order). -/
def heapPop : List EdgeCand → Option (EdgeCand × List EdgeCand)
  | [] => none
  | e :: rest =>
    match heapPop rest with
    | none => some (e, [])
    | some (m, rest') => if m.cost < e.cost then some (m, e :: rest') else some (e, rest)

/-- One step of the rewiring loop (qem.cpp line 159): for a neighbour `w`
of the removed vertex `v` (skipping the survivor `u`), replace `v` by `u`
in `adj[w]` and add `w` to `adj[u]`.  Note the source never removes `v`
from `adj[u]` itself. -/
def rewireStep (u v : ℕ) (adj : ℕ → List ℕ) (w : ℕ) : ℕ → List ℕ :=
  if w = u then adj
  else
    let a1 := upd adj w (lInsert u ((adj w).erase v))
    upd a1 u (lInsert w (a1 u))

/-- Corner substitution `if (x == v) x = u`. -/
def substV (u v c : ℕ) : ℕ := if c = v then u else c

/-- The face-update loop (qem.cpp lines 163-166): on every live face
replace corner `v` by `u`; a face whose corners become equal is marked
dead (its stored corners are left as they were, the source `continue`s
before writing back) and counted in the returned death tally. -/
def replaceFaces (u v : ℕ) : List FaceEntry → List FaceEntry × ℕ
  | [] => ([], 0)
  | fe :: fes =>
    let rest := replaceFaces u v fes
    if fe.alive = false then (fe :: rest.1, rest.2)
    else
      let a := substV u v fe.tri.a
      let b := substV u v fe.tri.b
      let c := substV u v fe.tri.c
      if a = b ∨ b = c ∨ a = c then ({ fe with alive := false } :: rest.1, rest.2 + 1)
      else (⟨⟨a, b, c⟩, true⟩ :: rest.1, rest.2)

/-- One collapse of edge `e = (u,v)` (qem.cpp lines 148-175, after the
staleness checks): move `u` to the midpoint, merge `v`'s quadric into
`u`'s, rewire `v`'s neighbours onto `u` (iterating a snapshot of
`adj[v]`), clear `adj[v]`, kill `v`, update the faces, and re-push fresh
candidates for every current neighbour of `u` (outer canonicalising swap
as in the source). -/
def collapseStep (st : QState) (e : EdgeCand) (rest : List EdgeCand) : QState :=
  let u := e.u
  let v := e.v
  let mid : Vec3 :=
    ⟨((st.verts u).x + (st.verts v).x) / 2, ((st.verts u).y + (st.verts v).y) / 2,
      ((st.verts u).z + (st.verts v).z) / 2⟩
  let verts1 := upd st.verts u mid
  let vq1 := upd st.vq u (q_add (st.vq u) (st.vq v))
  let adj1 := (st.adj v).foldl (fun a w => rewireStep u v a w) st.adj
  let adj2 := upd adj1 v []
  let alive1 := upd st.v_alive v false
  let rf := replaceFaces u v st.faces
  let heap1 :=
    (adj2 u).foldl
      (fun h w =>
        pushEdge verts1 vq1 adj2 (if u > w then w else u) (if u > w then u else w) h)
      rest
  { st with
    verts := verts1
    vq := vq1
    adj := adj2
    v_alive := alive1
    faces := rf.1
    faces_cur := st.faces_cur - rf.2
    heap := heap1
    collapsed := st.collapsed + 1
    iter := st.iter + 1 }

/-- One iteration of the greedy loop (qem.cpp lines 138-176): check the
`while` guard, then the cooperative time budget, then pop the cheapest
candidate; stale entries (a dead endpoint, or a pair no longer adjacent)
are discarded silently; otherwise collapse.  `none` means the loop
exits. -/
def loopStep (clock : ℕ → ℚ) (opt : SimplifyOptions) (st : QState) : Option QState :=
  if st.faces_cur > st.target ∧ st.heap ≠ [] ∧ st.collapsed < st.max_collapses then
    if opt.time_limit > 0 ∧ clock st.iter ≥ opt.time_limit then none
    else
      match heapPop st.heap with
      | none => none
      | some (e, rest) =>
        if st.v_alive e.u = false ∨ st.v_alive e.v = false then
          some { st with heap := rest, iter := st.iter + 1 }
        else if e.v ∉ st.adj e.u then
          some { st with heap := rest, iter := st.iter + 1 }
        else
          some (collapseStep st e rest)
  else none

/-- `n` bounded iterations of the loop (a fixpoint of `loopStep` is kept
unchanged); the loop-head states of a run are exactly the `stepN k`
images. -/
def stepN (clock : ℕ → ℚ) (opt : SimplifyOptions) : ℕ → QState → QState
  | 0, st => st
  | n + 1, st =>
    match loopStep clock opt st with
    | none => st
    | some s => stepN clock opt n s

/-- The full greedy loop: iterate `loopStep` until it reports exit.
Termination: a stale pop shrinks the heap with the collapse budget
unchanged, and a collapse strictly shrinks the remaining budget
`max_collapses - collapsed` (the guard requires
`collapsed < max_collapses`), so the pair decreases lexicographically. -/
def runLoop (clock : ℕ → ℚ) (opt : SimplifyOptions) (st : QState) : QState :=
  match h : loopStep clock opt st with
  | none => st
  | some s => runLoop clock opt s
termination_by ((st.max_collapses - st.collapsed).toNat, st.heap.length)
decreasing_by
  have hlen : ∀ (l : List EdgeCand) (p : EdgeCand × List EdgeCand),
      heapPop l = some p → p.2.length < l.length := by
    intro l
    induction l with
    | nil => intro p hp; simp [heapPop] at hp
    | cons e rest ih =>
      intro p hp
      rw [heapPop] at hp
      rcases hrec : heapPop rest with _ | ⟨q, rest'⟩ <;> simp only [hrec] at hp
      · cases hp
        simp
      · by_cases hc : q.cost < e.cost
        · rw [if_pos hc] at hp
          cases hp
          have := ih (q, rest') hrec
          simpa using Nat.succ_lt_succ this
        · rw [if_neg hc] at hp
          cases hp
          simp
  unfold loopStep at h
  split at h
  next hg =>
    split at h
    · exact absurd h (by simp)
    · split at h
      · exact absurd h (by simp)
      · next e rest hp =>
        split at h
        · cases h
          exact Prod.Lex.right _ (hlen _ _ hp)
        · split at h
          · cases h
            exact Prod.Lex.right _ (hlen _ _ hp)
          · cases h
            apply Prod.Lex.left
            have := hg.2.2
            simp only [collapseStep]
            omega
  next hg => exact absurd h (by simp)

/-- The loop of one `qem_simplify` call applied to the initial state. -/
def finalState (clock : ℕ → ℚ) (m : Mesh) (opt : SimplifyOptions) : QState :=
  runLoop clock opt (initState m opt)

/-- Vertex compaction (qem.cpp lines 179-181): scan vertices in index
order; each live vertex is appended to the dense output array and its
remap entry set to its new index (`none` is the source's `-1`). -/
def compactVerts (alive : ℕ → Bool) (verts : ℕ → Vec3) (nv : ℕ) :
    (ℕ → Option ℕ) × List Vec3 :=
  (List.range nv).foldl
    (fun acc i => if alive i then (upd acc.1 i (some acc.2.length), acc.2 ++ [verts i]) else acc)
    (fun _ => none, [])

/-- Face compaction (qem.cpp lines 182-184): keep live faces, rewrite the
corners through the remap, defensively dropping any face with an
unmapped corner. -/
def compactFaces (remap : ℕ → Option ℕ) : List FaceEntry → List Tri
  | [] => []
  | fe :: fes =>
    if fe.alive then
      match remap fe.tri.a, remap fe.tri.b, remap fe.tri.c with
      | some a, some b, some c => ⟨a, b, c⟩ :: compactFaces remap fes
      | _, _, _ => compactFaces remap fes
    else compactFaces remap fes

/-- Return value of `qem_simplify`: the mesh (mutated in place by the
source), the report, and the boolean result. -/
structure SimplifyResult where
  mesh : Mesh
  rep : SimplifyReport
  ok : Bool
deriving DecidableEq, Repr

/-- Compaction plus report (qem.cpp lines 178-189).  The source swaps the
dense arrays into `mesh.verts` / `mesh.faces` and never touches
`mesh.face_uvs`, which therefore keeps its input value. -/
def qemAssemble (m : Mesh) (st : QState) : SimplifyResult :=
  let cv := compactVerts st.v_alive st.verts st.nv
  let f2 := compactFaces cv.1 st.faces
  ⟨⟨cv.2, f2, m.face_uvs⟩, ⟨m.faces.length, f2.length, m.verts.length, cv.2.length⟩, true⟩

/-- Source `qem_simplify` (qem.cpp lines 70-190): record the before
counts, return immediately on an empty face list, otherwise run the
greedy loop and compact. -/
def qem_simplify (clock : ℕ → ℚ) (m : Mesh) (opt : SimplifyOptions) : SimplifyResult :=
  if m.faces.isEmpty then ⟨m, ⟨m.faces.length, 0, m.verts.length, m.verts.length⟩, true⟩
  else qemAssemble m (finalState clock m opt)

/-- Spec §3 adjacency invariant, as claimed: `v ∈ adjacency[u] ⟺
u ∈ adjacency[v]` for all vertex indices. -/
def AdjSymmetric (st : QState) : Prop := ∀ u v : ℕ, v ∈ st.adj u ↔ u ∈ st.adj v

/-- Adjacency symmetry restricted to pairs of live vertices (the amended
form of the invariant). -/
def SymLive (st : QState) : Prop :=
  ∀ u v : ℕ, st.v_alive u = true → st.v_alive v = true → (v ∈ st.adj u ↔ u ∈ st.adj v)

/-- The state-expressible part of claim C3: a dead vertex appears in no
live triangle and in no adjacency set.  (The claim's third conjunct,
about candidates pushed after the death, is temporal; see `C3`.) -/
def DeadIsolated (st : QState) : Prop :=
  ∀ i : ℕ, st.v_alive i = false →
    (∀ fe ∈ st.faces, fe.alive = true → fe.tri.a ≠ i ∧ fe.tri.b ≠ i ∧ fe.tri.c ≠ i) ∧
    ∀ u : ℕ, i ∉ st.adj u

/-- Number of live faces. -/
def liveFaceCount (fes : List FaceEntry) : ℕ := (fes.filter (·.alive)).length

/-- The spec's derivation of the loop target (§4.4): an absolute target
face count when positive, else `⌊F · ratio⌋` with the ratio clamped to
`[0, 1]` (written with `min`/`max` as the spec states it). -/
def specTarget (F : ℕ) (opt : SimplifyOptions) : ℤ :=
  if opt.target_faces > 0 then opt.target_faces else ⌊(F : ℚ) * min 1 (max 0 opt.ratio)⌋

/-- A structurally valid input mesh: every face references vertices in
range (the source indexes its vectors with them unchecked). -/
def ValidMesh (m : Mesh) : Prop :=
  ∀ f ∈ m.faces, f.a < m.verts.length ∧ f.b < m.verts.length ∧ f.c < m.verts.length

/-- Concrete input: a planar square split along the diagonal 1-2, with a
per-face UV triplet for each of the two triangles. -/
def sqMesh : Mesh :=
  ⟨[⟨0, 0, 0⟩, ⟨1, 0, 0⟩, ⟨0, 1, 0⟩, ⟨1, 1, 0⟩], [⟨0, 1, 2⟩, ⟨1, 3, 2⟩],
    [(0, 0, 0, 0, 0, 0), (1, 1, 1, 1, 1, 1)]⟩

/-- Options for the square: absolute target of 1 face, generous collapse
cap, no time limit. -/
def sqOpts : SimplifyOptions := { target_faces := 1, max_collapses := 10 }

/-- Concrete input: two triangles sharing edge 1-2, bent around it
(vertex 3 out of plane).  The shared edge is the strictly cheapest
candidate, and collapsing it kills both faces at once. -/
def bentMesh : Mesh :=
  ⟨[⟨-1, 0, 0⟩, ⟨0, 0, 0⟩, ⟨0, 1, 0⟩, ⟨1, 0, 1⟩], [⟨0, 1, 2⟩, ⟨1, 3, 2⟩], []⟩

/-- Options for the bent pair: absolute target of 1 face, default cap
(derived as `2 - 1 = 1`), no time limit. -/
def bentOpts : SimplifyOptions := { target_faces := 1 }

/-- Options with every field defaulted (ratio 1/2, derived cap), for the
derivation claim. -/
def defOpts : SimplifyOptions := {}

/-- A frozen clock (time never advances); the time limit is disabled in
all concrete runs anyway. -/
def clock0 : ℕ → ℚ := fun _ => 0

/-- Number of live vertices below index `i` — the remap value the
compactor assigns to a live vertex `i`. -/
def rankBelow (alive : ℕ → Bool) (i : ℕ) : ℕ := ((List.range i).filter alive).length

/-- The run invariant maintained by every loop iteration: heap entries
are canonical (`u < v`); adjacency is symmetric on pairs of live
vertices; live faces reference only live, pairwise-distinct corners; and
the live-face tally never exceeds the loop counter `faces_cur` (they
differ exactly by the faces dropped as degenerate during setup, which
`faces_cur` does not account for). -/
structure RunInv (st : QState) : Prop where
  heapOrd : ∀ e ∈ st.heap, e.u < e.v
  adjNodup : ∀ x : ℕ, (st.adj x).Nodup
  symLive : SymLive st
  liveCorners : ∀ fe ∈ st.faces, fe.alive = true →
    st.v_alive fe.tri.a = true ∧ st.v_alive fe.tri.b = true ∧ st.v_alive fe.tri.c = true
  distinctCorners : ∀ fe ∈ st.faces, fe.alive = true →
    fe.tri.a ≠ fe.tri.b ∧ fe.tri.b ≠ fe.tri.c ∧ fe.tri.a ≠ fe.tri.c
  liveLe : (liveFaceCount st.faces : ℤ) ≤ st.faces_cur

/-- Zero matrix, a singular input for the solver claim's witness. -/
def matZero : Mat3 := ⟨0, 0, 0, 0, 0, 0, 0, 0, 0⟩

/-- Zero vector. -/
def vec3Zero : Vec3 := ⟨0, 0, 0⟩

/-- Constant-zero vertex array for the solver claim's witness. -/
def wVerts : ℕ → Vec3 := fun _ => ⟨0, 0, 0⟩

/-- All-zero quadric accumulators for the solver claim's witness. -/
def wVq : ℕ → Quadric := fun _ => q_zero

/-- Adjacency making vertex 1 a neighbour of everything, for the solver
claim's witness. -/
def oneAdj : ℕ → List ℕ := fun _ => [1]

/-- A mesh with one vertex and no triangles. -/
def emptyFacesMesh : Mesh := ⟨[⟨3, 4, 5⟩], [], [(1, 2, 3, 4, 5, 6)]⟩

/-! Helper lemmas. -/

theorem upd_self {α : Type} (f : ℕ → α) (i : ℕ) (v : α) : upd f i v i = v := by
  simp [upd]

theorem upd_ne {α : Type} (f : ℕ → α) {i j : ℕ} (v : α) (h : j ≠ i) : upd f i v j = f j := by
  simp [upd, h]

theorem lInsert_mem (x : ℕ) (l : List ℕ) (z : ℕ) : z ∈ lInsert x l ↔ z = x ∨ z ∈ l := by
  unfold lInsert
  split
  · next h =>
    constructor
    · exact Or.inr
    · rintro (rfl | hz)
      · exact h
      · exact hz
  · exact List.mem_cons

theorem lInsert_nodup (x : ℕ) (l : List ℕ) (h : l.Nodup) : (lInsert x l).Nodup := by
  unfold lInsert
  split
  · exact h
  · next hx => exact List.nodup_cons.mpr ⟨hx, h⟩

theorem heapPop_mem {l : List EdgeCand} {e : EdgeCand} {rest : List EdgeCand}
    (h : heapPop l = some (e, rest)) : e ∈ l := by
  induction l generalizing e rest with
  | nil => simp [heapPop] at h
  | cons a l ih =>
    rw [heapPop] at h
    rcases hrec : heapPop l with _ | ⟨q, rest'⟩ <;> simp only [hrec] at h
    · cases h
      exact List.mem_cons_self _ _
    · by_cases hc : q.cost < a.cost
      · rw [if_pos hc] at h
        cases h
        exact List.mem_cons_of_mem _ (ih hrec)
      · rw [if_neg hc] at h
        cases h
        exact List.mem_cons_self _ _

theorem heapPop_rest_sub {l : List EdgeCand} {e : EdgeCand} {rest : List EdgeCand}
    (h : heapPop l = some (e, rest)) : ∀ x ∈ rest, x ∈ l := by
  induction l generalizing e rest with
  | nil => simp [heapPop] at h
  | cons a l ih =>
    rw [heapPop] at h
    rcases hrec : heapPop l with _ | ⟨q, rest'⟩ <;> simp only [hrec] at h
    · cases h
      intro x hx
      simp at hx
    · by_cases hc : q.cost < a.cost
      · rw [if_pos hc] at h
        cases h
        intro x hx
        rcases List.mem_cons.mp hx with rfl | hx'
        · exact List.mem_cons_self _ _
        · exact List.mem_cons_of_mem _ (ih hrec x hx')
      · rw [if_neg hc] at h
        cases h
        intro x hx
        exact List.mem_cons_of_mem _ hx

theorem pushEdge_mem {verts : ℕ → Vec3} {vq : ℕ → Quadric} {adj : ℕ → List ℕ}
    {u v : ℕ} {h0 : List EdgeCand} {x : EdgeCand}
    (hx : x ∈ pushEdge verts vq adj u v h0) : x ∈ h0 ∨ x.u < x.v := by
  by_cases h1 : u = v
  · rw [pushEdge, if_pos h1] at hx
    exact Or.inl hx
  · by_cases h2 : u > v
    · rw [pushEdge, if_neg h1] at hx
      simp only [if_pos h2] at hx
      split at hx
      · rcases List.mem_append.mp hx with h | h
        · exact Or.inl h
        · simp at h
          subst h
          exact Or.inr h2
      · exact Or.inl hx
    · rw [pushEdge, if_neg h1] at hx
      simp only [if_neg h2] at hx
      split at hx
      · rcases List.mem_append.mp hx with h | h
        · exact Or.inl h
        · simp at h
          subst h
          exact Or.inr (lt_of_le_of_ne (le_of_not_lt h2) h1)
      · exact Or.inl hx

theorem foldl_push_mem {g : List EdgeCand → ℕ → List EdgeCand}
    (hg : ∀ h w x, x ∈ g h w → x ∈ h ∨ x.u < x.v) :
    ∀ (ws : List ℕ) (h0 : List EdgeCand) (x : EdgeCand),
      x ∈ ws.foldl g h0 → x ∈ h0 ∨ x.u < x.v := by
  intro ws
  induction ws with
  | nil => intro h0 x hx; exact Or.inl hx
  | cons w ws ih =>
    intro h0 x hx
    rcases ih (g h0 w) x hx with h | h
    · exact hg h0 w x h
    · exact Or.inr h

theorem adjIns_mem (adj : ℕ → List ℕ) (x y w z : ℕ) :
    z ∈ adjIns adj x y w ↔ (if w = x then z = y ∨ z ∈ adj x else z ∈ adj w) := by
  by_cases h : w = x <;> simp [adjIns, upd, h, lInsert_mem]

theorem sixIns_mem (adj : ℕ → List ℕ) (f : Tri) (x z : ℕ) :
    z ∈ (adjIns (adjIns (adjIns (adjIns (adjIns (adjIns adj f.a f.b) f.a f.c) f.b f.a) f.b f.c)
      f.c f.a) f.c f.b) x ↔
    z ∈ adj x ∨ (x = f.a ∧ (z = f.b ∨ z = f.c)) ∨ (x = f.b ∧ (z = f.a ∨ z = f.c)) ∨
      (x = f.c ∧ (z = f.a ∨ z = f.b)) := by
  obtain ⟨a, b, c⟩ := f
  simp only [adjIns_mem]
  split_ifs <;> subst_vars <;> tauto

theorem buildAdj_mem : ∀ (fs : List Tri) (adj : ℕ → List ℕ) (x z : ℕ),
    z ∈ buildAdj fs adj x ↔ z ∈ adj x ∨ ∃ f ∈ fs,
      (x = f.a ∧ (z = f.b ∨ z = f.c)) ∨ (x = f.b ∧ (z = f.a ∨ z = f.c)) ∨
        (x = f.c ∧ (z = f.a ∨ z = f.b)) := by
  intro fs
  induction fs with
  | nil => intro adj x z; simp [buildAdj]
  | cons f fs ih =>
    intro adj x z
    rw [buildAdj, ih, sixIns_mem]
    simp only [List.mem_cons]
    constructor
    · rintro ((h | h) | ⟨g, hg, h⟩)
      · exact Or.inl h
      · exact Or.inr ⟨f, Or.inl rfl, h⟩
      · exact Or.inr ⟨g, Or.inr hg, h⟩
    · rintro (h | ⟨g, (rfl | hg), h⟩)
      · exact Or.inl (Or.inl h)
      · exact Or.inl (Or.inr h)
      · exact Or.inr ⟨g, hg, h⟩

theorem buildAdj_sym (fs : List Tri) (x z : ℕ) :
    z ∈ buildAdj fs (fun _ => ([] : List ℕ)) x ↔ x ∈ buildAdj fs (fun _ => ([] : List ℕ)) z := by
  rw [buildAdj_mem, buildAdj_mem]
  simp only [List.not_mem_nil, false_or]
  constructor <;> (rintro ⟨f, hf, hcase⟩; exact ⟨f, hf, by tauto⟩)

theorem adjIns_nodup (adj : ℕ → List ℕ) (x y : ℕ) (hN : ∀ z, (adj z).Nodup) :
    ∀ z, (adjIns adj x y z).Nodup := by
  intro z
  unfold adjIns upd
  split
  · next h => exact lInsert_nodup _ _ (hN x)
  · exact hN z

theorem buildAdj_nodup : ∀ (fs : List Tri) (adj : ℕ → List ℕ), (∀ z, (adj z).Nodup) →
    ∀ z, (buildAdj fs adj z).Nodup := by
  intro fs
  induction fs with
  | nil => intro adj hN z; exact hN z
  | cons f fs ih =>
    intro adj hN z
    rw [buildAdj]
    exact ih _ (adjIns_nodup _ _ _ (adjIns_nodup _ _ _ (adjIns_nodup _ _ _ (adjIns_nodup _ _ _
      (adjIns_nodup _ _ _ (adjIns_nodup _ _ _ hN)))))) z

theorem deg_cross_zero (p q r : Vec3) (h : q = p ∨ r = p ∨ q = r) :
    dot3 (cross (sub3 q p) (sub3 r p)) (cross (sub3 q p) (sub3 r p)) = 0 := by
  rcases h with h | h | h <;> subst h <;> simp [cross, sub3, dot3] <;> ring

theorem tolSq_pos : 0 < tolSq := by norm_num [tolSq, tol]

theorem accumFaces_length (verts : ℕ → Vec3) :
    ∀ (fs : List Tri) (vq : ℕ → Quadric), (accumFaces verts fs vq).1.length = fs.length := by
  intro fs
  induction fs with
  | nil => intro vq; simp [accumFaces]
  | cons f fs ih =>
    intro vq
    rw [accumFaces]
    split <;> simp [ih]

theorem accumFaces_entry (verts : ℕ → Vec3) :
    ∀ (fs : List Tri) (vq : ℕ → Quadric) (fe : FaceEntry), fe ∈ (accumFaces verts fs vq).1 →
      fe.tri ∈ fs ∧ (fe.alive = true →
        ¬ dot3 (cross (sub3 (verts fe.tri.b) (verts fe.tri.a)) (sub3 (verts fe.tri.c) (verts fe.tri.a)))
            (cross (sub3 (verts fe.tri.b) (verts fe.tri.a)) (sub3 (verts fe.tri.c) (verts fe.tri.a)))
          < tolSq) := by
  intro fs
  induction fs with
  | nil => intro vq fe h; simp [accumFaces] at h
  | cons f fs ih =>
    intro vq fe h
    rw [accumFaces] at h
    split at h
    · next hS =>
      rcases List.mem_cons.mp h with rfl | h'
      · exact ⟨List.mem_cons_self _ _, by intro hc; cases hc⟩
      · obtain ⟨h1, h2⟩ := ih _ fe h'
        exact ⟨List.mem_cons_of_mem _ h1, h2⟩
    · next hS =>
      rcases List.mem_cons.mp h with rfl | h'
      · exact ⟨List.mem_cons_self _ _, fun _ => hS⟩
      · obtain ⟨h1, h2⟩ := ih _ fe h'
        exact ⟨List.mem_cons_of_mem _ h1, h2⟩

theorem accumFaces_distinct (verts : ℕ → Vec3) (fs : List Tri) (vq : ℕ → Quadric)
    (fe : FaceEntry) (h : fe ∈ (accumFaces verts fs vq).1) (ha : fe.alive = true) :
    fe.tri.a ≠ fe.tri.b ∧ fe.tri.b ≠ fe.tri.c ∧ fe.tri.a ≠ fe.tri.c := by
  have h2 := (accumFaces_entry verts fs vq fe h).2 ha
  refine ⟨?_, ?_, ?_⟩ <;> intro he <;> apply h2
  · rw [deg_cross_zero _ _ _ (Or.inl (by rw [he]))]
    exact tolSq_pos
  · rw [deg_cross_zero _ _ _ (Or.inr (Or.inr (by rw [he])))]
    exact tolSq_pos
  · rw [deg_cross_zero _ _ _ (Or.inr (Or.inl (by rw [he])))]
    exact tolSq_pos

theorem replaceFaces_length (u v : ℕ) : ∀ fes, (replaceFaces u v fes).1.length = fes.length := by
  intro fes
  induction fes with
  | nil => simp [replaceFaces]
  | cons fe fes ih =>
    by_cases hd : fe.alive = false
    · simp [replaceFaces, hd, ih]
    · by_cases hdeg : substV u v fe.tri.a = substV u v fe.tri.b ∨
        substV u v fe.tri.b = substV u v fe.tri.c ∨ substV u v fe.tri.a = substV u v fe.tri.c
      · simp [replaceFaces, hd, hdeg, ih]
      · simp [replaceFaces, hd, hdeg, ih]

theorem replaceFaces_live (u v : ℕ) :
    ∀ fes, liveFaceCount (replaceFaces u v fes).1 + (replaceFaces u v fes).2 = liveFaceCount fes := by
  intro fes
  induction fes with
  | nil => simp [replaceFaces, liveFaceCount]
  | cons fe fes ih =>
    by_cases hd : fe.alive = false
    · simp [replaceFaces, hd, liveFaceCount, List.filter_cons] at ih ⊢
      omega
    · simp only [Bool.not_eq_false] at hd
      by_cases hdeg : substV u v fe.tri.a = substV u v fe.tri.b ∨
        substV u v fe.tri.b = substV u v fe.tri.c ∨ substV u v fe.tri.a = substV u v fe.tri.c
      · simp [replaceFaces, hd, hdeg, liveFaceCount, List.filter_cons] at ih ⊢
        omega
      · simp [replaceFaces, hd, hdeg, liveFaceCount, List.filter_cons] at ih ⊢
        omega

theorem replaceFaces_entry (u v : ℕ) :
    ∀ fes (fe' : FaceEntry), fe' ∈ (replaceFaces u v fes).1 → fe'.alive = true →
      ∃ fe ∈ fes, fe.alive = true ∧ fe'.tri.a = substV u v fe.tri.a ∧
        fe'.tri.b = substV u v fe.tri.b ∧ fe'.tri.c = substV u v fe.tri.c ∧
        fe'.tri.a ≠ fe'.tri.b ∧ fe'.tri.b ≠ fe'.tri.c ∧ fe'.tri.a ≠ fe'.tri.c := by
  intro fes
  induction fes with
  | nil => intro fe' h; simp [replaceFaces] at h
  | cons fe fes ih =>
    intro fe' h ha
    by_cases hd : fe.alive = false
    · rw [replaceFaces] at h
      simp only [hd, if_true, if_pos] at h
      rcases List.mem_cons.mp h with rfl | h'
      · rw [ha] at hd
        cases hd
      · obtain ⟨g, hg, hrest⟩ := ih fe' h' ha
        exact ⟨g, List.mem_cons_of_mem _ hg, hrest⟩
    · simp only [Bool.not_eq_false] at hd
      by_cases hdeg : substV u v fe.tri.a = substV u v fe.tri.b ∨
        substV u v fe.tri.b = substV u v fe.tri.c ∨ substV u v fe.tri.a = substV u v fe.tri.c
      · rw [replaceFaces] at h
        simp only [hd, hdeg, Bool.true_eq_false, if_false, if_true, if_pos, if_neg] at h
        rcases List.mem_cons.mp h with rfl | h'
        · simp at ha
        · obtain ⟨g, hg, hrest⟩ := ih fe' h' ha
          exact ⟨g, List.mem_cons_of_mem _ hg, hrest⟩
      · rw [replaceFaces] at h
        simp only [hd, hdeg, Bool.true_eq_false, if_false, if_neg] at h
        rcases List.mem_cons.mp h with rfl | h'
        · push_neg at hdeg
          exact ⟨fe, List.mem_cons_self _ _, hd, rfl, rfl, rfl, hdeg.1, hdeg.2.1, hdeg.2.2⟩
        · obtain ⟨g, hg, hrest⟩ := ih fe' h' ha
          exact ⟨g, List.mem_cons_of_mem _ hg, hrest⟩

theorem rewireStep_apply (u v : ℕ) (adj : ℕ → List ℕ) (w z : ℕ) :
    rewireStep u v adj w z =
      if w = u then adj z
      else if z = u then lInsert w (adj u)
      else if z = w then lInsert u ((adj w).erase v)
      else adj z := by
  by_cases hwu : w = u
  · simp [rewireStep, hwu]
  · have huw : ¬ u = w := fun h => hwu h.symm
    by_cases hzu : z = u
    · simp [rewireStep, upd, hwu, huw, hzu]
    · by_cases hzw : z = w
      · simp [rewireStep, upd, hwu, huw, hzu, hzw]
      · simp [rewireStep, upd, hwu, huw, hzu, hzw]

theorem rewireStep_nodup (u v : ℕ) (adj : ℕ → List ℕ) (w : ℕ)
    (hN : ∀ z, (adj z).Nodup) : ∀ z, (rewireStep u v adj w z).Nodup := by
  intro z
  rw [rewireStep_apply]
  split
  · exact hN z
  · split
    · exact lInsert_nodup _ _ (hN u)
    · split
      · exact lInsert_nodup _ _ ((hN w).erase _)
      · exact hN z

theorem rewire_fold_nodup (u v : ℕ) :
    ∀ (S : List ℕ) (adj : ℕ → List ℕ), (∀ z, (adj z).Nodup) →
      ∀ z, ((S.foldl (fun a w => rewireStep u v a w) adj) z).Nodup := by
  intro S
  induction S with
  | nil => intro adj hN z; exact hN z
  | cons w T ih =>
    intro adj hN z
    rw [List.foldl_cons]
    exact ih _ (rewireStep_nodup u v adj w hN) z

theorem rewire_fold_mem (u v : ℕ) :
    ∀ (S : List ℕ), S.Nodup → ∀ (adj : ℕ → List ℕ), (∀ z, (adj z).Nodup) → ∀ (x y : ℕ),
      (y ∈ (S.foldl (fun a w => rewireStep u v a w) adj) x ↔
        (if x = u then y ∈ adj u ∨ (y ∈ S ∧ y ≠ u)
         else if x ∈ S then y = u ∨ (y ∈ adj x ∧ y ≠ v)
         else y ∈ adj x)) := by
  intro S
  induction S with
  | nil =>
    intro _ adj _ x y
    by_cases hxu : x = u <;> simp [hxu]
  | cons w T ih =>
    intro hnd adj hN x y
    obtain ⟨hw, hT⟩ := List.nodup_cons.mp hnd
    rw [List.foldl_cons, ih hT _ (rewireStep_nodup u v adj w hN)]
    by_cases hxu : x = u
    · rw [if_pos hxu, if_pos hxu, rewireStep_apply]
      by_cases hwu : w = u
      · rw [if_pos hwu]
        simp only [List.mem_cons, hwu]
        have hcong : ∀ p : Prop, (y = u ∨ p) ∧ y ≠ u ↔ p ∧ y ≠ u := by
          intro p
          constructor
          · rintro ⟨rfl | hp, hy⟩
            · exact absurd rfl hy
            · exact ⟨hp, hy⟩
          · rintro ⟨hp, hy⟩
            exact ⟨Or.inr hp, hy⟩
        rw [hcong]
      · rw [if_neg hwu, if_pos rfl]
        rw [show ∀ q : List ℕ, (y ∈ lInsert w q ↔ y = w ∨ y ∈ q) from fun q => lInsert_mem w q y]
        simp only [List.mem_cons]
        have hcong : y = w → y = u → False := fun h1 h2 => hwu (h1.symm.trans h2)
        constructor
        · rintro ((rfl | h) | ⟨hT', hy⟩)
          · exact Or.inr ⟨Or.inl rfl, fun h => hcong rfl h⟩
          · exact Or.inl h
          · exact Or.inr ⟨Or.inr hT', hy⟩
        · rintro (h | ⟨(rfl | hT'), hy⟩)
          · exact Or.inl (Or.inr h)
          · exact Or.inl (Or.inl rfl)
          · exact Or.inr ⟨hT', hy⟩
    · rw [if_neg hxu, if_neg hxu, rewireStep_apply]
      by_cases hwu : w = u
      · rw [if_pos hwu]
        by_cases hxT : x ∈ T
        · rw [if_pos hxT, if_pos (List.mem_cons_of_mem _ hxT)]
        · have hxwT : x ∉ w :: T := by
            rw [List.mem_cons]
            push_neg
            exact ⟨fun h => hxu (h.trans hwu), hxT⟩
          rw [if_neg hxT, if_neg hxwT]
      · rw [if_neg hwu, if_neg hxu]
        by_cases hxw : x = w
        · have hxT : x ∉ T := by rw [hxw]; exact hw
          rw [if_pos hxw, if_neg hxT, if_pos (by rw [hxw]; exact List.mem_cons_self _ _)]
          rw [hxw]
          rw [lInsert_mem, List.Nodup.mem_erase_iff (hN w)]
          tauto
        · rw [if_neg hxw]
          by_cases hxT : x ∈ T
          · rw [if_pos hxT, if_pos (List.mem_cons_of_mem _ hxT)]
          · have hxwT : x ∉ w :: T := by
              rw [List.mem_cons]
              push_neg
              exact ⟨hxw, hxT⟩
            rw [if_neg hxT, if_neg hxwT]

theorem collapse_alive (st : QState) (e : EdgeCand) (rest : List EdgeCand) :
    (collapseStep st e rest).v_alive = upd st.v_alive e.v false := rfl

theorem collapse_faces (st : QState) (e : EdgeCand) (rest : List EdgeCand) :
    (collapseStep st e rest).faces = (replaceFaces e.u e.v st.faces).1 := rfl

theorem collapse_faces_cur (st : QState) (e : EdgeCand) (rest : List EdgeCand) :
    (collapseStep st e rest).faces_cur = st.faces_cur - (replaceFaces e.u e.v st.faces).2 := rfl

theorem collapse_consts (st : QState) (e : EdgeCand) (rest : List EdgeCand) :
    (collapseStep st e rest).nv = st.nv ∧ (collapseStep st e rest).target = st.target ∧
      (collapseStep st e rest).max_collapses = st.max_collapses ∧
      (collapseStep st e rest).collapsed = st.collapsed + 1 := ⟨rfl, rfl, rfl, rfl⟩

theorem collapse_adj_eq (st : QState) (e : EdgeCand) (rest : List EdgeCand) :
    (collapseStep st e rest).adj =
      upd ((st.adj e.v).foldl (fun a w => rewireStep e.u e.v a w) st.adj) e.v [] := rfl

theorem collapse_adj_nodup (st : QState) (e : EdgeCand) (rest : List EdgeCand)
    (hN : ∀ z, (st.adj z).Nodup) : ∀ z, ((collapseStep st e rest).adj z).Nodup := by
  intro z
  rw [collapse_adj_eq]
  by_cases hzv : z = e.v
  · rw [hzv, upd_self]
    exact List.nodup_nil
  · rw [upd_ne _ _ hzv]
    exact rewire_fold_nodup e.u e.v _ st.adj hN z

theorem collapse_adj_mem (st : QState) (e : EdgeCand) (rest : List EdgeCand)
    (hN : ∀ z, (st.adj z).Nodup) (x y : ℕ) :
    y ∈ (collapseStep st e rest).adj x ↔
      (if x = e.v then False
       else if x = e.u then y ∈ st.adj e.u ∨ (y ∈ st.adj e.v ∧ y ≠ e.u)
       else if x ∈ st.adj e.v then y = e.u ∨ (y ∈ st.adj x ∧ y ≠ e.v)
       else y ∈ st.adj x) := by
  rw [collapse_adj_eq]
  by_cases hxv : x = e.v
  · subst hxv
    simp [upd]
  · rw [upd_ne _ _ hxv]
    rw [rewire_fold_mem e.u e.v _ (hN e.v) st.adj hN x y]
    rw [if_neg hxv]

theorem collapse_heap_mem {st : QState} {e : EdgeCand} {rest : List EdgeCand} {x : EdgeCand}
    (hx : x ∈ (collapseStep st e rest).heap) : x ∈ rest ∨ x.u < x.v := by
  have hh : (collapseStep st e rest).heap =
      ((upd ((st.adj e.v).foldl (fun a w => rewireStep e.u e.v a w) st.adj) e.v []) e.u).foldl
        (fun h w =>
          pushEdge (upd st.verts e.u
              ⟨((st.verts e.u).x + (st.verts e.v).x) / 2, ((st.verts e.u).y + (st.verts e.v).y) / 2,
                ((st.verts e.u).z + (st.verts e.v).z) / 2⟩)
            (upd st.vq e.u (q_add (st.vq e.u) (st.vq e.v)))
            (upd ((st.adj e.v).foldl (fun a w => rewireStep e.u e.v a w) st.adj) e.v [])
            (if e.u > w then w else e.u) (if e.u > w then e.u else w) h)
        rest := rfl
  rw [hh] at hx
  exact foldl_push_mem (fun h w y hy => pushEdge_mem hy) _ _ _ hx

theorem runInv_collapse (st : QState) (e : EdgeCand) (rest : List EdgeCand)
    (hI : RunInv st) (hu : st.v_alive e.u = true) (hv : st.v_alive e.v = true)
    (hadj : e.v ∈ st.adj e.u) (huv : e.u ≠ e.v) (hrest : ∀ x ∈ rest, x ∈ st.heap) :
    RunInv (collapseStep st e rest) := by
  constructor
  · intro e' he'
    rcases collapse_heap_mem he' with h | h
    · exact hI.heapOrd e' (hrest e' h)
    · exact h
  · exact collapse_adj_nodup st e rest hI.adjNodup
  · intro x y hx hy
    rw [collapse_alive] at hx hy
    have hxv : x ≠ e.v := by
      intro h
      rw [h, upd_self] at hx
      cases hx
    have hyv : y ≠ e.v := by
      intro h
      rw [h, upd_self] at hy
      cases hy
    rw [upd_ne _ _ hxv] at hx
    rw [upd_ne _ _ hyv] at hy
    rw [collapse_adj_mem st e rest hI.adjNodup, collapse_adj_mem st e rest hI.adjNodup,
      if_neg hxv, if_neg hyv]
    have Hxy := hI.symLive x y hx hy
    have Huy := hI.symLive e.u y hu hy
    have Hux := hI.symLive e.u x hu hx
    have Hvx := hI.symLive e.v x hv hx
    have Hvy := hI.symLive e.v y hv hy
    by_cases hxu : x = e.u <;> by_cases hyu : y = e.u <;>
      by_cases hxS : x ∈ st.adj e.v <;> by_cases hyS : y ∈ st.adj e.v <;>
        simp [hxu, hyu, hxS, hyS] at Hxy Huy Hux Hvx Hvy ⊢ <;> tauto
  · intro fe' hmem halive
    rw [collapse_faces] at hmem
    obtain ⟨fe, hfe, hfea, ha', hb', hc', _, _, _⟩ :=
      replaceFaces_entry e.u e.v st.faces fe' hmem halive
    obtain ⟨hca, hcb, hcc⟩ := hI.liveCorners fe hfe hfea
    rw [collapse_alive]
    have hsub : ∀ c : ℕ, st.v_alive c = true →
        upd st.v_alive e.v false (substV e.u e.v c) = true := by
      intro c hc
      unfold substV
      by_cases h : c = e.v
      · rw [if_pos h, upd_ne _ _ huv]
        exact hu
      · rw [if_neg h, upd_ne _ _ h]
        exact hc
    refine ⟨?_, ?_, ?_⟩
    · rw [ha']
      exact hsub _ hca
    · rw [hb']
      exact hsub _ hcb
    · rw [hc']
      exact hsub _ hcc
  · intro fe' hmem halive
    rw [collapse_faces] at hmem
    obtain ⟨fe, hfe, hfea, _, _, _, hd1, hd2, hd3⟩ :=
      replaceFaces_entry e.u e.v st.faces fe' hmem halive
    exact ⟨hd1, hd2, hd3⟩
  · rw [collapse_faces, collapse_faces_cur]
    have h1 := replaceFaces_live e.u e.v st.faces
    have h2 := hI.liveLe
    omega

theorem runInv_step {clock : ℕ → ℚ} {opt : SimplifyOptions} {st s : QState}
    (h : loopStep clock opt st = some s) (hI : RunInv st) : RunInv s := by
  unfold loopStep at h
  split at h
  · split at h
    · cases h
    · split at h
      · cases h
      · next e rest hp =>
        split at h
        · cases h
          exact ⟨fun e' he' => hI.heapOrd e' (heapPop_rest_sub hp e' he'), hI.adjNodup,
            hI.symLive, hI.liveCorners, hI.distinctCorners, hI.liveLe⟩
        · split at h
          · cases h
            exact ⟨fun e' he' => hI.heapOrd e' (heapPop_rest_sub hp e' he'), hI.adjNodup,
              hI.symLive, hI.liveCorners, hI.distinctCorners, hI.liveLe⟩
          · next h1 h2 =>
            cases h
            push_neg at h1
            simp only [Bool.not_eq_false] at h1
            push_neg at h2
            have he := heapPop_mem hp
            have huv := hI.heapOrd e he
            exact runInv_collapse st e rest hI h1.1 h1.2 h2 (Nat.ne_of_lt huv)
              (heapPop_rest_sub hp)
  · cases h

theorem seedHeap_ord (verts : ℕ → Vec3) (vq : ℕ → Quadric) (adj : ℕ → List ℕ) (nv : ℕ) :
    ∀ x ∈ seedHeap verts vq adj nv, x.u < x.v := by
  intro x hx
  unfold seedHeap at hx
  have houter : ∀ (h : List EdgeCand) (u : ℕ) (y : EdgeCand),
      y ∈ (adj u).foldl
        (fun h2 w => if u < w then pushEdge verts vq adj u w h2 else h2) h →
      y ∈ h ∨ y.u < y.v := by
    intro h u y hy
    refine foldl_push_mem ?_ _ _ _ hy
    intro h2 w z hz
    split at hz
    · exact pushEdge_mem hz
    · exact Or.inl hz
  rcases foldl_push_mem houter _ _ _ hx with h | h
  · simp at h
  · exact h

theorem runInv_init (m : Mesh) (opt : SimplifyOptions) : RunInv (initState m opt) := by
  constructor
  · exact fun e he => seedHeap_ord _ _ _ _ e he
  · exact buildAdj_nodup m.faces _ (fun _ => List.nodup_nil)
  · intro u v _ _
    exact buildAdj_sym m.faces u v
  · intro fe _ _
    exact ⟨rfl, rfl, rfl⟩
  · intro fe hmem halive
    exact accumFaces_distinct _ m.faces _ fe hmem halive
  · have h1 : liveFaceCount (initState m opt).faces ≤ (initState m opt).faces.length :=
      List.length_filter_le _ _
    have h2 : (initState m opt).faces.length = m.faces.length :=
      accumFaces_length _ m.faces _
    have h3 : (initState m opt).faces_cur = (m.faces.length : ℤ) := rfl
    rw [h3]
    rw [h2] at h1
    exact_mod_cast h1

theorem runInv_stepN (clock : ℕ → ℚ) (opt : SimplifyOptions) (n : ℕ) (st : QState)
    (hI : RunInv st) : RunInv (stepN clock opt n st) := by
  induction n generalizing st with
  | zero => exact hI
  | succ n ih =>
    rw [stepN]
    rcases h : loopStep clock opt st with _ | s <;> simp only [h]
    · exact hI
    · exact ih s (runInv_step h hI)

theorem loopStep_const {clock : ℕ → ℚ} {opt : SimplifyOptions} {st s : QState}
    (h : loopStep clock opt st = some s) :
    s.nv = st.nv ∧ s.target = st.target ∧ s.max_collapses = st.max_collapses ∧
      s.faces.length = st.faces.length := by
  unfold loopStep at h
  split at h
  · split at h
    · cases h
    · split at h
      · cases h
      · next e rest hp =>
        split at h
        · cases h
          exact ⟨rfl, rfl, rfl, rfl⟩
        · split at h
          · cases h
            exact ⟨rfl, rfl, rfl, rfl⟩
          · cases h
            refine ⟨rfl, rfl, rfl, ?_⟩
            rw [collapse_faces, replaceFaces_length]
  · cases h

theorem runLoop_exit {clock : ℕ → ℚ} {opt : SimplifyOptions} {st : QState}
    (h : loopStep clock opt st = none) : runLoop clock opt st = st := by
  unfold runLoop
  split
  · rfl
  · next s hs =>
    rw [h] at hs
    cases hs

theorem runLoop_succ {clock : ℕ → ℚ} {opt : SimplifyOptions} {st s : QState}
    (h : loopStep clock opt st = some s) : runLoop clock opt st = runLoop clock opt s := by
  conv_lhs => unfold runLoop
  split
  · next hs =>
    rw [h] at hs
    cases hs
  · next s' hs =>
    rw [h] at hs
    cases hs
    rfl

theorem runLoop_ind (clock : ℕ → ℚ) (opt : SimplifyOptions) (P : QState → Prop)
    (hstep : ∀ st s, loopStep clock opt st = some s → P st → P s) :
    ∀ st, P st → P (runLoop clock opt st) := by
  intro st
  induction st using runLoop.induct clock opt with
  | case1 st hnone =>
    intro h0
    rw [runLoop_exit hnone]
    exact h0
  | case2 st s hsome ih =>
    intro h0
    rw [runLoop_succ hsome]
    exact ih (hstep st s hsome h0)

theorem runLoop_fix (clock : ℕ → ℚ) (opt : SimplifyOptions) :
    ∀ st, loopStep clock opt (runLoop clock opt st) = none := by
  intro st
  induction st using runLoop.induct clock opt with
  | case1 st hnone =>
    rw [runLoop_exit hnone]
    exact hnone
  | case2 st s hsome ih =>
    rw [runLoop_succ hsome]
    exact ih

theorem runLoop_eq_stepN (clock : ℕ → ℚ) (opt : SimplifyOptions) :
    ∀ (n : ℕ) (st : QState), loopStep clock opt (stepN clock opt n st) = none →
      runLoop clock opt st = stepN clock opt n st := by
  intro n
  induction n with
  | zero =>
    intro st h
    exact runLoop_exit h
  | succ n ih =>
    intro st h
    rcases hs : loopStep clock opt st with _ | s
    · rw [runLoop_exit hs]
      rw [stepN]
      simp only [hs]
    · have hr : stepN clock opt (n + 1) st = stepN clock opt n s := by
        rw [stepN]
        simp only [hs]
      rw [hr] at h
      rw [runLoop_succ hs, ih s h, hr]

theorem stepN_const (clock : ℕ → ℚ) (opt : SimplifyOptions) :
    ∀ (n : ℕ) (st : QState),
      (stepN clock opt n st).nv = st.nv ∧ (stepN clock opt n st).target = st.target ∧
        (stepN clock opt n st).max_collapses = st.max_collapses ∧
        (stepN clock opt n st).faces.length = st.faces.length := by
  intro n
  induction n with
  | zero => intro st; exact ⟨rfl, rfl, rfl, rfl⟩
  | succ n ih =>
    intro st
    rw [stepN]
    rcases hs : loopStep clock opt st with _ | s <;> simp only [hs]
    · simp
    · obtain ⟨h1, h2, h3, h4⟩ := ih s
      obtain ⟨g1, g2, g3, g4⟩ := loopStep_const hs
      exact ⟨h1.trans g1, h2.trans g2, h3.trans g3, h4.trans g4⟩

theorem runLoop_const (clock : ℕ → ℚ) (opt : SimplifyOptions) (st : QState) :
    (runLoop clock opt st).nv = st.nv ∧ (runLoop clock opt st).target = st.target ∧
      (runLoop clock opt st).max_collapses = st.max_collapses ∧
      (runLoop clock opt st).faces.length = st.faces.length := by
  refine runLoop_ind clock opt
    (fun s => s.nv = st.nv ∧ s.target = st.target ∧ s.max_collapses = st.max_collapses ∧
      s.faces.length = st.faces.length) ?_ st ⟨rfl, rfl, rfl, rfl⟩
  intro s1 s2 h hP
  obtain ⟨g1, g2, g3, g4⟩ := loopStep_const h
  exact ⟨g1.trans hP.1, g2.trans hP.2.1, g3.trans hP.2.2.1, g4.trans hP.2.2.2⟩

theorem runLoop_inv (clock : ℕ → ℚ) (opt : SimplifyOptions) (st : QState) (hI : RunInv st) :
    RunInv (runLoop clock opt st) :=
  runLoop_ind clock opt RunInv (fun _ _ h hP => runInv_step h hP) st hI

theorem compactVerts_succ (alive : ℕ → Bool) (verts : ℕ → Vec3) (n : ℕ) :
    compactVerts alive verts (n + 1) =
      (if alive n = true
        then (upd (compactVerts alive verts n).1 n (some (compactVerts alive verts n).2.length),
          (compactVerts alive verts n).2 ++ [verts n])
        else compactVerts alive verts n) := by
  unfold compactVerts
  rw [List.range_succ, List.foldl_append, List.foldl_cons, List.foldl_nil]

theorem compactVerts_snd (alive : ℕ → Bool) (verts : ℕ → Vec3) :
    ∀ n, (compactVerts alive verts n).2 = ((List.range n).filter alive).map verts := by
  intro n
  induction n with
  | zero => simp [compactVerts]
  | succ n ih =>
    rw [compactVerts_succ, List.range_succ, List.filter_append, List.map_append]
    by_cases h : alive n = true <;> simp [h, ih]

theorem compactVerts_fst (alive : ℕ → Bool) (verts : ℕ → Vec3) :
    ∀ n i, (compactVerts alive verts n).1 i =
      if i < n ∧ alive i = true then some (rankBelow alive i) else none := by
  intro n
  induction n with
  | zero => intro i; simp [compactVerts]
  | succ n ih =>
    intro i
    rw [compactVerts_succ]
    by_cases h : alive n = true
    · rw [if_pos h]
      by_cases hin : i = n
      · subst hin
        show upd (compactVerts alive verts i).1 i _ i = _
        rw [upd_self, compactVerts_snd]
        rw [if_pos ⟨Nat.lt_succ_self i, h⟩]
        simp [rankBelow]
      · show upd (compactVerts alive verts n).1 n _ i = _
        rw [upd_ne _ _ hin, ih]
        by_cases hlt : i < n ∧ alive i = true
        · rw [if_pos hlt, if_pos ⟨Nat.lt_succ_of_lt hlt.1, hlt.2⟩]
        · rw [if_neg hlt, if_neg ?_]
          intro ⟨h1, h2⟩
          exact hlt ⟨Nat.lt_of_le_of_ne (Nat.le_of_lt_succ h1) hin, h2⟩
    · rw [if_neg h, ih]
      by_cases hlt : i < n ∧ alive i = true
      · rw [if_pos hlt, if_pos ⟨Nat.lt_succ_of_lt hlt.1, hlt.2⟩]
      · rw [if_neg hlt, if_neg ?_]
        intro ⟨h1, h2⟩
        rcases Nat.lt_succ_iff_lt_or_eq.mp h1 with h1' | rfl
        · exact hlt ⟨h1', h2⟩
        · exact absurd h2 h

theorem rankBelow_succ (alive : ℕ → Bool) (i : ℕ) :
    rankBelow alive (i + 1) = rankBelow alive i + (if alive i = true then 1 else 0) := by
  unfold rankBelow
  rw [List.range_succ, List.filter_append]
  by_cases h : alive i = true <;> simp [h]

theorem rankBelow_mono (alive : ℕ → Bool) {i j : ℕ} (h : i ≤ j) :
    rankBelow alive i ≤ rankBelow alive j := by
  obtain ⟨d, rfl⟩ := Nat.exists_eq_add_of_le h
  clear h
  induction d with
  | zero => exact le_refl _
  | succ d ih =>
    rw [show i + (d + 1) = (i + d) + 1 from rfl, rankBelow_succ]
    split <;> omega

theorem rankBelow_strict (alive : ℕ → Bool) {i j : ℕ} (hij : i < j) (hai : alive i = true) :
    rankBelow alive i < rankBelow alive j := by
  have h1 : rankBelow alive (i + 1) = rankBelow alive i + 1 := by
    rw [rankBelow_succ, if_pos hai]
  have h2 : rankBelow alive (i + 1) ≤ rankBelow alive j := rankBelow_mono alive hij
  omega

theorem compactVerts_len (alive : ℕ → Bool) (verts : ℕ → Vec3) (n : ℕ) :
    (compactVerts alive verts n).2.length = rankBelow alive n := by
  rw [compactVerts_snd]
  simp [rankBelow]

theorem compactFaces_mem (remap : ℕ → Option ℕ) :
    ∀ (fes : List FaceEntry) (t : Tri), t ∈ compactFaces remap fes →
      ∃ fe ∈ fes, fe.alive = true ∧ remap fe.tri.a = some t.a ∧ remap fe.tri.b = some t.b ∧
        remap fe.tri.c = some t.c := by
  intro fes
  induction fes with
  | nil => intro t ht; simp [compactFaces] at ht
  | cons fe fes ih =>
    intro t ht
    rw [compactFaces] at ht
    split at ht
    · next halive =>
      split at ht
      · next a b c ha hb hc =>
        rcases List.mem_cons.mp ht with rfl | ht'
        · exact ⟨fe, List.mem_cons_self _ _, halive, ha, hb, hc⟩
        · obtain ⟨g, hg, hrest⟩ := ih t ht'
          exact ⟨g, List.mem_cons_of_mem _ hg, hrest⟩
      · obtain ⟨g, hg, hrest⟩ := ih t ht
        exact ⟨g, List.mem_cons_of_mem _ hg, hrest⟩
    · obtain ⟨g, hg, hrest⟩ := ih t ht
      exact ⟨g, List.mem_cons_of_mem _ hg, hrest⟩

theorem compactFaces_len (remap : ℕ → Option ℕ) :
    ∀ fes : List FaceEntry, (compactFaces remap fes).length ≤ liveFaceCount fes := by
  intro fes
  induction fes with
  | nil => simp [compactFaces, liveFaceCount]
  | cons fe fes ih =>
    rw [compactFaces]
    split
    · next halive =>
      have hc : liveFaceCount (fe :: fes) = liveFaceCount fes + 1 := by
        simp [liveFaceCount, List.filter_cons, halive]
      split
      · simp only [List.length_cons]
        omega
      · omega
    · next halive =>
      have hc : liveFaceCount (fe :: fes) = liveFaceCount fes := by
        simp only [Bool.not_eq_true] at halive
        simp [liveFaceCount, List.filter_cons, halive]
      omega

theorem liveFaceCount_le (fes : List FaceEntry) : liveFaceCount fes ≤ fes.length :=
  List.length_filter_le _ _

theorem targetExpr_eq (m : Mesh) (opt : SimplifyOptions) :
    (if opt.target_faces > 0 then opt.target_faces
      else max 0 ⌊(m.faces.length : ℚ) * clamp opt.ratio 0 1⌋) =
      specTarget m.faces.length opt := by
  unfold specTarget
  by_cases h : opt.target_faces > 0
  · rw [if_pos h, if_pos h]
  · rw [if_neg h, if_neg h]
    have hc : clamp opt.ratio 0 1 = min 1 (max 0 opt.ratio) := by
      unfold clamp
      by_cases h1 : opt.ratio < 0
      · rw [if_pos h1, max_eq_left h1.le]
        norm_num
      · rw [if_neg h1]
        by_cases h2 : opt.ratio > 1
        · rw [if_pos h2, max_eq_right (le_of_not_lt h1), min_eq_left h2.le]
        · rw [if_neg h2, max_eq_right (le_of_not_lt h1), min_eq_right (le_of_not_lt h2)]
    rw [hc]
    refine max_eq_right ?_
    apply Int.floor_nonneg.mpr
    apply mul_nonneg
    · exact_mod_cast Nat.zero_le _
    · exact le_min zero_le_one (le_max_left 0 _)

theorem initState_target (m : Mesh) (opt : SimplifyOptions) :
    (initState m opt).target = specTarget m.faces.length opt := by
  show (if opt.target_faces > 0 then opt.target_faces
    else max 0 ⌊(m.faces.length : ℚ) * clamp opt.ratio 0 1⌋) = _
  exact targetExpr_eq m opt

theorem initState_cap (m : Mesh) (opt : SimplifyOptions) (h : opt.max_collapses ≤ 0) :
    (initState m opt).max_collapses =
      max 0 ((m.faces.length : ℤ) - specTarget m.faces.length opt) := by
  have hng : ¬ opt.max_collapses > 0 := not_lt.mpr h
  show (if (if opt.max_collapses > 0 then opt.max_collapses
      else (m.faces.length : ℤ) -
        (if opt.target_faces > 0 then opt.target_faces
          else max 0 ⌊(m.faces.length : ℚ) * clamp opt.ratio 0 1⌋)) < 0 then 0
    else if opt.max_collapses > 0 then opt.max_collapses
      else (m.faces.length : ℤ) -
        (if opt.target_faces > 0 then opt.target_faces
          else max 0 ⌊(m.faces.length : ℚ) * clamp opt.ratio 0 1⌋)) = _
  rw [if_neg hng, targetExpr_eq]
  rcases le_or_lt 0 ((m.faces.length : ℤ) - specTarget m.faces.length opt) with h' | h'
  · rw [if_neg (not_lt.mpr h'), max_eq_right h']
  · rw [if_pos h', max_eq_left h'.le]

theorem heapPop_none {l : List EdgeCand} (h : heapPop l = none) : l = [] := by
  cases l with
  | nil => rfl
  | cons e rest =>
    rw [heapPop] at h
    rcases hrec : heapPop rest with _ | ⟨q, r⟩ <;> simp only [hrec] at h
    · cases h
    · split at h <;> cases h

theorem rankBelow_le (alive : ℕ → Bool) (n : ℕ) : rankBelow alive n ≤ n := by
  have h := List.length_filter_le alive (List.range n)
  simpa [rankBelow] using h

theorem specTarget_nonneg (F : ℕ) (opt : SimplifyOptions) : 0 ≤ specTarget F opt := by
  unfold specTarget
  split
  · next h => exact le_of_lt h
  · apply Int.floor_nonneg.mpr
    apply mul_nonneg
    · exact_mod_cast Nat.zero_le F
    · exact le_min zero_le_one (le_max_left 0 _)

theorem qem_simplify_run (clock : ℕ → ℚ) (m : Mesh) (opt : SimplifyOptions)
    (hne : m.faces ≠ []) :
    qem_simplify clock m opt = qemAssemble m (finalState clock m opt) := by
  unfold qem_simplify
  rw [if_neg (by simp [hne])]

theorem qem_simplify_stepN (clock : ℕ → ℚ) (m : Mesh) (opt : SimplifyOptions) (n : ℕ)
    (hne : m.faces ≠ [])
    (h : loopStep clock opt (stepN clock opt n (initState m opt)) = none) :
    qem_simplify clock m opt = qemAssemble m (stepN clock opt n (initState m opt)) := by
  rw [qem_simplify_run clock m opt hne]
  unfold finalState
  rw [runLoop_eq_stepN clock opt n _ h]

theorem pv0_eq (M : M34) : pv0 M = colMax0 M := by
  unfold pv0 colMax0
  split_ifs with h1 h2 h3
  · rw [max_eq_right h2.le, max_eq_right (le_of_lt (lt_trans h1 h2))]
  · rw [max_eq_left (le_of_not_lt h2), max_eq_right h1.le]
  · rw [max_eq_right (le_of_lt (lt_of_le_of_lt (le_of_not_lt h1) h3)), max_eq_right h3.le]
  · rw [max_eq_left (max_le (le_of_not_lt h1) (le_of_not_lt h3))]

theorem pv1_eq (M : M34) : pv1 M = colMax1 M := by
  unfold pv1 colMax1
  split_ifs with h
  · rw [max_eq_right h.le]
  · rw [max_eq_left (le_of_not_lt h)]

theorem pv2_eq (M : M34) : pv2 M = colMax2 M := rfl

/-- Claim C7: for every input with initial face count `F` and options, if
`target_faces > 0` the loop's target equals `target_faces`; otherwise the
target equals `⌊F · ratio⌋` with the ratio clamped to `[0,1]`; and if
`max_collapses` is non-positive, the collapse cap defaults to
`F − target`, clamped so it is never negative. -/
theorem C7_target_derivation (m : Mesh) (opt : SimplifyOptions) :
    (initState m opt).target = specTarget m.faces.length opt ∧
      (opt.max_collapses ≤ 0 →
        (initState m opt).max_collapses =
          max 0 ((m.faces.length : ℤ) - specTarget m.faces.length opt)) :=
  ⟨initState_target m opt, fun h => initState_cap m opt h⟩

/-- Witness for C7 at a concrete mesh and fully-defaulted options
(`ratio = 1/2`, `target_faces = -1`, `max_collapses = -1`): the target is
`⌊2 · 1/2⌋ = 1` and the cap defaults to `2 - 1 = 1`. -/
theorem C7_witness :
    (initState sqMesh defOpts).target = specTarget sqMesh.faces.length defOpts ∧
      (initState sqMesh defOpts).max_collapses =
        max 0 ((sqMesh.faces.length : ℤ) - specTarget sqMesh.faces.length defOpts) :=
  ⟨(C7_target_derivation sqMesh defOpts).1,
    (C7_target_derivation sqMesh defOpts).2 (by decide)⟩

/-- Claim C9: on a mesh with zero triangles, `qem_simplify` returns
success, leaves the mesh (in particular the vertex array) unmodified,
and reports `facesBefore = facesAfter = 0` and
`vertsAfter = vertsBefore`. -/
theorem C9_empty_noop (clock : ℕ → ℚ) (m : Mesh) (opt : SimplifyOptions) (h : m.faces = []) :
    qem_simplify clock m opt = ⟨m, ⟨0, 0, m.verts.length, m.verts.length⟩, true⟩ := by
  unfold qem_simplify
  rw [if_pos (by simp [h])]
  rw [h]
  rfl

/-- Witness for C9 at a concrete one-vertex, zero-triangle mesh. -/
theorem C9_witness :
    qem_simplify clock0 emptyFacesMesh defOpts =
      ⟨emptyFacesMesh, ⟨0, 0, 1, 1⟩, true⟩ :=
  C9_empty_noop clock0 emptyFacesMesh defOpts rfl

/-- Claim C10: `qem_simplify` leaves `face_uvs` exactly as supplied — the
simplification core never reads, filters, reindexes, or writes the
per-face attribute container (its run state `QState` does not even carry
it), on every input and option set. -/
theorem C10_face_uvs_untouched (clock : ℕ → ℚ) (m : Mesh) (opt : SimplifyOptions) :
    (qem_simplify clock m opt).mesh.face_uvs = m.face_uvs := by
  unfold qem_simplify
  split
  · rfl
  · rfl

/-- Claim C6: for every input, `facesAfter ≤ facesBefore` and
`vertsAfter ≤ vertsBefore` (proved for all inputs, hence in particular
for all valid ones). -/
theorem C6_counts_monotone (clock : ℕ → ℚ) (m : Mesh) (opt : SimplifyOptions) :
    (qem_simplify clock m opt).rep.faces_after ≤ (qem_simplify clock m opt).rep.faces_before ∧
      (qem_simplify clock m opt).rep.verts_after ≤ (qem_simplify clock m opt).rep.verts_before := by
  unfold qem_simplify
  split
  · exact ⟨Nat.zero_le _, le_refl _⟩
  · constructor
    · show (compactFaces _ (finalState clock m opt).faces).length ≤ m.faces.length
      calc (compactFaces _ (finalState clock m opt).faces).length
          ≤ liveFaceCount (finalState clock m opt).faces := compactFaces_len _ _
        _ ≤ (finalState clock m opt).faces.length := liveFaceCount_le _
        _ = (initState m opt).faces.length := (runLoop_const clock opt (initState m opt)).2.2.2
        _ = m.faces.length := accumFaces_length _ m.faces _
    · show (compactVerts (finalState clock m opt).v_alive (finalState clock m opt).verts
          (finalState clock m opt).nv).2.length ≤ m.verts.length
      rw [compactVerts_len]
      calc rankBelow (finalState clock m opt).v_alive (finalState clock m opt).nv
          ≤ (finalState clock m opt).nv := rankBelow_le _ _
        _ = (initState m opt).nv := (runLoop_const clock opt (initState m opt)).1
        _ = m.verts.length := rfl

/-- Claim C5: every triangle in the output of `qem_simplify` references
three pairwise-distinct vertex indices, each within `[0, vertsAfter)`
(proved for every input mesh). -/
theorem C5_output_faces_valid (clock : ℕ → ℚ) (m : Mesh) (opt : SimplifyOptions) :
    ∀ t ∈ (qem_simplify clock m opt).mesh.faces,
      (t.a ≠ t.b ∧ t.b ≠ t.c ∧ t.a ≠ t.c) ∧
        t.a < (qem_simplify clock m opt).rep.verts_after ∧
        t.b < (qem_simplify clock m opt).rep.verts_after ∧
        t.c < (qem_simplify clock m opt).rep.verts_after := by
  intro t ht
  by_cases hE : m.faces.isEmpty = true
  · rw [show qem_simplify clock m opt = ⟨m, ⟨0, 0, m.verts.length, m.verts.length⟩, true⟩ from
      C9_empty_noop clock m opt (by simpa using hE)] at ht
    have : m.faces = [] := by simpa using hE
    rw [this] at ht
    cases ht
  · have hne : m.faces ≠ [] := by simpa using hE
    rw [qem_simplify_run clock m opt hne] at ht ⊢
    have hI : RunInv (finalState clock m opt) :=
      runLoop_inv clock opt _ (runInv_init m opt)
    have hmem : t ∈ compactFaces
        (compactVerts (finalState clock m opt).v_alive (finalState clock m opt).verts
          (finalState clock m opt).nv).1 (finalState clock m opt).faces := ht
    obtain ⟨fe, hfe, hfea, hra, hrb, hrc⟩ := compactFaces_mem _ _ t hmem
    have hremap : ∀ c k : ℕ,
        (compactVerts (finalState clock m opt).v_alive (finalState clock m opt).verts
          (finalState clock m opt).nv).1 c = some k →
        c < (finalState clock m opt).nv ∧ (finalState clock m opt).v_alive c = true ∧
          k = rankBelow (finalState clock m opt).v_alive c := by
      intro c k hc
      rw [compactVerts_fst] at hc
      split at hc
      · next hP =>
        cases hc
        exact ⟨hP.1, hP.2, rfl⟩
      · cases hc
    obtain ⟨hba, haa, hka⟩ := hremap _ _ hra
    obtain ⟨hbb, hab, hkb⟩ := hremap _ _ hrb
    obtain ⟨hbc, hac, hkc⟩ := hremap _ _ hrc
    obtain ⟨hd1, hd2, hd3⟩ := hI.distinctCorners fe hfe hfea
    have hinj : ∀ {i j : ℕ}, i < (finalState clock m opt).nv →
        j < (finalState clock m opt).nv → (finalState clock m opt).v_alive i = true →
        (finalState clock m opt).v_alive j = true → i ≠ j →
        rankBelow (finalState clock m opt).v_alive i ≠
          rankBelow (finalState clock m opt).v_alive j := by
      intro i j _ _ hai haj hne'
      rcases Nat.lt_or_ge i j with h | h
      · exact Nat.ne_of_lt (rankBelow_strict _ h hai)
      · have hji : j < i := lt_of_le_of_ne h (Ne.symm hne')
        exact (Nat.ne_of_lt (rankBelow_strict _ hji haj)).symm
    have hva : (qemAssemble m (finalState clock m opt)).rep.verts_after =
        rankBelow (finalState clock m opt).v_alive (finalState clock m opt).nv := by
      show (compactVerts _ _ _).2.length = _
      exact compactVerts_len _ _ _
    refine ⟨⟨?_, ?_, ?_⟩, ?_, ?_, ?_⟩
    · rw [hka, hkb]
      exact hinj hba hbb haa hab hd1
    · rw [hkb, hkc]
      exact hinj hbb hbc hab hac hd2
    · rw [hka, hkc]
      exact hinj hba hbc haa hac hd3
    · rw [hva, hka]
      exact rankBelow_strict _ hba haa
    · rw [hva, hkb]
      exact rankBelow_strict _ hbb hab
    · rw [hva, hkc]
      exact rankBelow_strict _ hbc hac

unseal Rat.add Rat.mul Rat.inv Rat.sub in
/-- Witness for C5: the square run leaves exactly one triangle, `(1,2,0)`,
whose corners are distinct and below `vertsAfter = 3`. -/
theorem C5_witness :
    (⟨1, 2, 0⟩ : Tri) ∈ (qem_simplify clock0 sqMesh sqOpts).mesh.faces ∧
      (((1:ℕ) ≠ 2 ∧ (2:ℕ) ≠ 0 ∧ (1:ℕ) ≠ 0) ∧
        1 < (qem_simplify clock0 sqMesh sqOpts).rep.verts_after ∧
        2 < (qem_simplify clock0 sqMesh sqOpts).rep.verts_after ∧
        0 < (qem_simplify clock0 sqMesh sqOpts).rep.verts_after) := by
  have hmem : (⟨1, 2, 0⟩ : Tri) ∈ (qem_simplify clock0 sqMesh sqOpts).mesh.faces := by
    rw [qem_simplify_stepN clock0 sqMesh sqOpts 1 (by decide) rfl]
    decide
  exact ⟨hmem, C5_output_faces_valid clock0 sqMesh sqOpts ⟨1, 2, 0⟩ hmem⟩

unseal Rat.add Rat.mul Rat.inv Rat.sub in
/-- Counterexample to claim C2 as stated: on the square mesh, after the
first collapse (which removes vertex 2 into vertex 0) the dead vertex 2
is still a member of `adjacency[0]` while `adjacency[2]` has been
cleared, so `2 ∈ adjacency[0]` but `0 ∉ adjacency[2]` — the source never
erases the removed vertex from the survivor's set (qem.cpp line 159
skips `w == u`). -/
theorem C2_counterexample :
    ¬ (∀ k : ℕ, AdjSymmetric (stepN clock0 sqOpts k (initState sqMesh sqOpts))) := by
  intro hall
  have h1 : (2 : ℕ) ∈ (stepN clock0 sqOpts 1 (initState sqMesh sqOpts)).adj 0 := by decide
  have h2 : (0 : ℕ) ∉ (stepN clock0 sqOpts 1 (initState sqMesh sqOpts)).adj 2 := by decide
  exact h2 ((hall 1 0 2).mp h1)

/-- Claim C2, amended: the adjacency structure is symmetric when
restricted to pairs of live vertices, at every loop-head state of every
run (the collapsed vertex may linger asymmetrically inside the
survivor's set). -/
theorem C2_amended (m : Mesh) (opt : SimplifyOptions) (clock : ℕ → ℚ) (k : ℕ) :
    SymLive (stepN clock opt k (initState m opt)) :=
  (runInv_stepN clock opt k _ (runInv_init m opt)).symLive

unseal Rat.add Rat.mul Rat.inv Rat.sub in
/-- Counterexample to claim C3 as stated: in the square run the dead
vertex 2 remains a member of `adjacency[0]` after its death (and the
re-seed loop then pushes a fresh candidate `(0,2)` with the dead
endpoint), violating the "not a member of any vertex's adjacency set"
conjunct. -/
theorem C3_counterexample :
    ¬ (∀ k : ℕ, DeadIsolated (stepN clock0 sqOpts k (initState sqMesh sqOpts))) := by
  intro hall
  have h1 : (stepN clock0 sqOpts 1 (initState sqMesh sqOpts)).v_alive 2 = false := by decide
  have h2 := (hall 1 2 h1).2 0
  exact h2 (by decide : (2 : ℕ) ∈ (stepN clock0 sqOpts 1 (initState sqMesh sqOpts)).adj 0)

/-- Claim C3, amended: at every loop-head state of every run, a dead
vertex does not appear as a corner of any live triangle (it may linger
in the survivor's adjacency set, and stale candidates with a dead
endpoint may sit in the priority structure until the pop-time staleness
check discards them). -/
theorem C3_amended (m : Mesh) (opt : SimplifyOptions) (clock : ℕ → ℚ) (k : ℕ) :
    ∀ i : ℕ, (stepN clock opt k (initState m opt)).v_alive i = false →
      ∀ fe ∈ (stepN clock opt k (initState m opt)).faces, fe.alive = true →
        fe.tri.a ≠ i ∧ fe.tri.b ≠ i ∧ fe.tri.c ≠ i := by
  intro i hdead fe hmem halive
  have hI := runInv_stepN clock opt k _ (runInv_init m opt)
  obtain ⟨ha, hb, hc⟩ := hI.liveCorners fe hmem halive
  refine ⟨?_, ?_, ?_⟩ <;> intro he
  · rw [he] at ha
    rw [ha] at hdead
    cases hdead
  · rw [he] at hb
    rw [hb] at hdead
    cases hdead
  · rw [he] at hc
    rw [hc] at hdead
    cases hdead

unseal Rat.add Rat.mul Rat.inv Rat.sub in
/-- Witness for the amended C3 at the square run: vertex 2 is dead after
the first collapse, the face `(1,3,0)` is live, and none of its corners
is 2. -/
theorem C3_witness :
    (stepN clock0 sqOpts 1 (initState sqMesh sqOpts)).v_alive 2 = false ∧
      (⟨⟨1, 3, 0⟩, true⟩ : FaceEntry) ∈ (stepN clock0 sqOpts 1 (initState sqMesh sqOpts)).faces ∧
      ((1 : ℕ) ≠ 2 ∧ (3 : ℕ) ≠ 2 ∧ (0 : ℕ) ≠ 2) :=
  ⟨by decide, by decide,
    C3_amended sqMesh sqOpts clock0 1 2 (by decide) ⟨⟨1, 3, 0⟩, true⟩ (by decide) rfl⟩

unseal Rat.add Rat.mul Rat.inv Rat.sub in
/-- Counterexample to claim C4 as stated: on the bent two-triangle strip
with `target_faces = 1`, the target 1 is reachable within the collapse
cap (the cap is 1, and collapsing the candidate edge `(0,1)` — present in
the initial heap — brings the live-face count to exactly 1) and the time
budget is disabled, yet the run collapses the cheaper shared edge
`(1,2)`, which kills both triangles at once, and reports
`faces_after = 0 ≠ 1`. -/
theorem C4_counterexample :
    (qem_simplify clock0 bentMesh bentOpts).rep.faces_after = 0 ∧
      specTarget bentMesh.faces.length bentOpts = 1 ∧
      bentOpts.time_limit ≤ 0 ∧
      (initState bentMesh bentOpts).max_collapses = 1 ∧
      (⟨0, 1, 1/8⟩ : EdgeCand) ∈ (initState bentMesh bentOpts).heap ∧
      (collapseStep (initState bentMesh bentOpts) ⟨0, 1, 1/8⟩ []).faces_cur = 1 := by
  refine ⟨?_, by decide, by decide, by decide, by decide, by decide⟩
  rw [qem_simplify_stepN clock0 bentMesh bentOpts 1 (by decide) rfl]
  decide

/-- Claim C4, amended: with the time budget disabled, if the greedy loop
stops while candidate edges remain and the collapse cap has not been
reached, then the reported `faces_after` is at most the derived target
(the loop never stops early above the target; it may finish below it,
since one collapse can kill two faces that straddle the target). -/
theorem C4_amended (clock : ℕ → ℚ) (m : Mesh) (opt : SimplifyOptions)
    (hne : m.faces ≠ []) (hT : opt.time_limit ≤ 0)
    (hheap : (finalState clock m opt).heap ≠ [])
    (hcap : (finalState clock m opt).collapsed < (finalState clock m opt).max_collapses) :
    ((qem_simplify clock m opt).rep.faces_after : ℤ) ≤ specTarget m.faces.length opt := by
  have hfix : loopStep clock opt (finalState clock m opt) = none :=
    runLoop_fix clock opt (initState m opt)
  have hle : (finalState clock m opt).faces_cur ≤ (finalState clock m opt).target := by
    by_contra hgt
    push_neg at hgt
    unfold loopStep at hfix
    rw [if_pos ⟨hgt, hheap, hcap⟩, if_neg (fun hc => (not_lt.mpr hT) hc.1)] at hfix
    rcases hp : heapPop (finalState clock m opt).heap with _ | ⟨e, rest⟩
    · exact hheap (heapPop_none hp)
    · simp only [hp] at hfix
      split at hfix
      · cases hfix
      · split at hfix <;> cases hfix
  have htar : (finalState clock m opt).target = specTarget m.faces.length opt := by
    show (runLoop clock opt (initState m opt)).target = _
    rw [(runLoop_const clock opt (initState m opt)).2.1, initState_target]
  have hI : RunInv (finalState clock m opt) :=
    runLoop_inv clock opt (initState m opt) (runInv_init m opt)
  rw [qem_simplify_run clock m opt hne]
  show ((compactFaces (compactVerts (finalState clock m opt).v_alive
      (finalState clock m opt).verts (finalState clock m opt).nv).1
      (finalState clock m opt).faces).length : ℤ) ≤ specTarget m.faces.length opt
  calc ((compactFaces _ (finalState clock m opt).faces).length : ℤ)
      ≤ (liveFaceCount (finalState clock m opt).faces : ℤ) := by
        exact_mod_cast compactFaces_len _ (finalState clock m opt).faces
    _ ≤ (finalState clock m opt).faces_cur := hI.liveLe
    _ ≤ (finalState clock m opt).target := hle
    _ = specTarget m.faces.length opt := htar

unseal Rat.add Rat.mul Rat.inv Rat.sub in
/-- Witness for the amended C4 at the square run: the loop stops with
seven candidates still in the heap and only 1 of the 10 allowed collapses
used, and the reported face count 1 is at most the target 1. -/
theorem C4_witness :
    (finalState clock0 sqMesh sqOpts).heap ≠ [] ∧
      (finalState clock0 sqMesh sqOpts).collapsed <
        (finalState clock0 sqMesh sqOpts).max_collapses ∧
      ((qem_simplify clock0 sqMesh sqOpts).rep.faces_after : ℤ) ≤
        specTarget sqMesh.faces.length sqOpts := by
  have hfs : finalState clock0 sqMesh sqOpts = stepN clock0 sqOpts 1 (initState sqMesh sqOpts) :=
    runLoop_eq_stepN clock0 sqOpts 1 _ rfl
  have hheap : (finalState clock0 sqMesh sqOpts).heap ≠ [] := by rw [hfs]; decide
  have hcap : (finalState clock0 sqMesh sqOpts).collapsed <
      (finalState clock0 sqMesh sqOpts).max_collapses := by rw [hfs]; decide
  exact ⟨hheap, hcap, C4_amended clock0 sqMesh sqOpts (by decide) (by decide) hheap hcap⟩

unseal Rat.add Rat.mul Rat.inv Rat.sub in
/-- C1, evaluated at the failing input: the square run with a per-face UV
triplet for each of the 2 input triangles ends with `faces_after = 1`,
but the output attribute array still has length 2 — the compaction code
(qem.cpp lines 178-189) never filters `face_uvs`, so it is not kept in
lockstep with the triangle array. -/
theorem C1_uv_not_compacted :
    sqMesh.face_uvs.length = sqMesh.faces.length ∧
      (qem_simplify clock0 sqMesh sqOpts).rep.faces_after = 1 ∧
      (qem_simplify clock0 sqMesh sqOpts).mesh.face_uvs.length = 2 := by
  rw [qem_simplify_stepN clock0 sqMesh sqOpts 1 (by decide) rfl]
  decide

/-- C8: the solver `solve3` returns failure exactly when, at some stage
of the elimination, the largest absolute pivot available in the current
column is below the tolerance `1e-12` (stage 1 and 2 conditions are
stated on the matrices left by the previous successful stages); and
whenever the solve fails, `push_edge` on an adjacent canonical pair
appends exactly one candidate whose position is the arithmetic midpoint
of the two endpoint positions — the heap append is its only effect, and
no vertex, quadric or adjacency state is written. -/
theorem C8_solver_fail_and_midpoint :
    (∀ (A : Mat3) (b : Vec3),
      solve3 A b = none ↔
        colMax0 (mkM A b) < tol ∨
          (¬ colMax0 (mkM A b) < tol ∧ colMax1 (elim0 (mkM A b)) < tol) ∨
          (¬ colMax0 (mkM A b) < tol ∧ ¬ colMax1 (elim0 (mkM A b)) < tol ∧
            colMax2 (elim1 (elim0 (mkM A b))) < tol)) ∧
    (∀ (verts : ℕ → Vec3) (vq : ℕ → Quadric) (adj : ℕ → List ℕ) (u v : ℕ)
        (heap : List EdgeCand), u < v → v ∈ adj u →
      solve3 (quvA (q_sum (vq u) (vq v))) (quvB (q_sum (vq u) (vq v))) = none →
      pushEdge verts vq adj u v heap =
        heap ++ [⟨u, v,
          quadric_eval (q_sum (vq u) (vq v)) (((verts u).x + (verts v).x) / 2)
            (((verts u).y + (verts v).y) / 2) (((verts u).z + (verts v).z) / 2) 1⟩]) := by
  constructor
  · intro A b
    unfold solve3
    simp only [pv0_eq, pv1_eq, pv2_eq]
    split_ifs with h1 h2 h3 <;> simp [*]
  · intro verts vq adj u v heap huv hadj hsolve
    unfold pushEdge
    rw [if_neg (Nat.ne_of_lt huv)]
    simp only [gt_iff_lt, if_neg (lt_asymm huv), if_pos hadj, hsolve]

unseal Rat.add Rat.mul Rat.inv Rat.sub in
/-- Witness for C8: the zero quadric system (a rank-deficient quadric, as
near mesh boundaries) has pivot column maximum `0 < 1e-12`, so `solve3`
fails, and `push_edge` on the adjacent pair `(0,1)` appends exactly the
midpoint candidate. -/
theorem C8_witness :
    (colMax0 (mkM matZero vec3Zero) < tol ∧ solve3 matZero vec3Zero = none) ∧
      ((0 : ℕ) < 1 ∧ (1 : ℕ) ∈ oneAdj 0 ∧
        solve3 (quvA (q_sum (wVq 0) (wVq 1))) (quvB (q_sum (wVq 0) (wVq 1))) = none) ∧
      pushEdge wVerts wVq oneAdj 0 1 [] =
        [] ++ [⟨0, 1,
          quadric_eval (q_sum (wVq 0) (wVq 1)) (((wVerts 0).x + (wVerts 1).x) / 2)
            (((wVerts 0).y + (wVerts 1).y) / 2) (((wVerts 0).z + (wVerts 1).z) / 2) 1⟩] := by
  refine ⟨⟨by decide, ?_⟩, ⟨by decide, by decide, by decide⟩, ?_⟩
  · exact (C8_solver_fail_and_midpoint.1 matZero vec3Zero).mpr (Or.inl (by decide))
  · exact C8_solver_fail_and_midpoint.2 wVerts wVq oneAdj 0 1 [] (by decide) (by decide)
      (by decide)
